import Mathlib

/-!
# Verification of the AudioSocket colosim bridge and stream client

A shallow embedding of the two Python programs of this repository:

* `colosim_bridge.py` — an HTTP ingestion endpoint (`BridgeHTTPHandler.do_POST`)
  that acknowledges, parses, normalizes and re-broadcasts producer events to a
  registry of TCP subscribers (`BridgeState`);
* `audio_socket_client.py` — the consumer (`connect`) that reads the byte
  stream, splits it into newline-terminated frames, and decodes each frame
  with `json.loads`.

Events on the wire are flat JSON objects whose values are integers and
strings (spec §3: every event attribute is an integer or a string, and
pass-through fields are "representable as text").  The JSON codec is
therefore embedded for that fragment: `encodeEventChars` models
`json.dumps` (default options: `ensure_ascii=True`, separators `", "` and
`": "`) on such objects, and `decodeEvent` models `json.loads` restricted
to them.  Subscriber sockets are modelled by natural-number handles
together with a failure predicate `bad` saying which handles raise on
`sendall`.
-/

namespace AudioSocket

/-- A JSON value of the fragment used on this wire: integers and strings
(the only value shapes the bridge and the plugin place in events). -/
inductive JVal where
  | vInt (n : Int)
  | vStr (s : String)
deriving DecidableEq, Repr

/-- An event: a Python dict from field names to values, modelled as an
insertion-ordered association list (Python dicts preserve insertion
order). -/
abbrev Event := List (String × JVal)

/-- Python truthiness of a JSON value of our fragment: `0` and `""` are
falsy, everything else is truthy. -/
def JVal.truthy : JVal → Bool
  | .vInt n => n != 0
  | .vStr s => s != ""

/-- Python truthiness of `dict.get(k)`: `None` (absent key) is falsy. -/
def optTruthy : Option JVal → Bool
  | none => false
  | some v => v.truthy

/-- Python `dict.__setitem__`: replace the value in place if the key is
already present (keeping its position), otherwise append. -/
def dictInsert (d : Event) (k : String) (v : JVal) : Event :=
  if (d.lookup k).isSome then
    d.map (fun p => if p.1 = k then (k, v) else p)
  else
    d ++ [(k, v)]

/-- Build a Python dict from a sequence of key/value pairs (as produced by
`json.loads` on an object literal): later duplicates overwrite earlier
ones, first occurrence keeps its position. -/
def toDict (items : List (String × JVal)) : Event :=
  items.foldl (fun d p => dictInsert d p.1 p.2) []

/-- One optional field of `do_POST`'s normalization:
`if event.get(k): out[k] = event[k]` — included only when present and
truthy. -/
def optField (event : Event) (k : String) : Event :=
  match event.lookup k with
  | some v => if v.truthy then [(k, v)] else []
  | none => []

/-- The sourceAnimation segment of the normalization:
`if event.get('sourceAnimation') and event['sourceAnimation'] != -1`. -/
def animField (event : Event) : Event :=
  match event.lookup "sourceAnimation" with
  | some v => if v.truthy && v != .vInt (-1) then [("sourceAnimation", v)] else []
  | none => []

/-- The unconditional `out = {...}` dict literal of `do_POST`: the seven
always-present fields with their `event.get(key, default)` values. -/
def coreFields (counter : Nat) (event : Event) : Event :=
  [("type", (event.lookup "type").getD (.vStr "AREA_SOUND_EFFECT")),
   ("soundId", (event.lookup "soundId").getD (.vInt counter)),
   ("delay", (event.lookup "delay").getD (.vInt 0)),
   ("timestamp", (event.lookup "timestamp").getD (.vInt 0)),
   ("sceneX", (event.lookup "sceneX").getD (.vInt 0)),
   ("sceneY", (event.lookup "sceneY").getD (.vInt 0)),
   ("range", (event.lookup "range").getD (.vInt 15))]

/-- `do_POST`'s normalization of a parsed producer event into the RuneLite
AudioSocket wire format (`colosim_bridge.py`, the `out = {...}` block and
the conditional field copies that follow it).  `counter` is
`state.event_count` after the increment that precedes this block. -/
def normalize (counter : Nat) (event : Event) : Event :=
  coreFields counter event
  ++ optField event "sourceName"
  ++ animField event
  ++ optField event "soundFile"
  ++ optField event "soundUrl"
  ++ optField event "attackType"
  ++ optField event "source"

/-! ## The subscriber registry (`BridgeState`) -/

/-- A subscriber handle: stands for one TCP client socket held in
`BridgeState.tcp_clients`. -/
abbrev Sub := Nat

/-- Shared bridge state: the subscriber list and the running event
counter. -/
structure BridgeState where
  tcp_clients : List Sub
  event_count : Nat
deriving DecidableEq, Repr

/-- `BridgeState.add_client`: unconditionally appends the writer. -/
def addClient (st : BridgeState) (w : Sub) : BridgeState :=
  { st with tcp_clients := st.tcp_clients ++ [w] }

/-- `BridgeState.remove_client`: removes the first occurrence if present
(`list.remove`), no error when absent. -/
def removeClient (st : BridgeState) (w : Sub) : BridgeState :=
  { st with tcp_clients := st.tcp_clients.erase w }

/-- Outcome of one `BridgeState.broadcast` call.  `delivered` records, in
iteration order, each successful `sendall` (handle, bytes written);
`closed` are the sockets collected in `dead` and then closed; `remaining`
is the client list after the `dead` removals. -/
structure BroadcastResult where
  delivered : List (Sub × String)
  remaining : List Sub
  closed : List Sub
deriving DecidableEq, Repr

/-- The `for sock in self.tcp_clients` loop of `broadcast`: try
`sendall(message + '\n')` on each socket in order; a socket whose write
raises (`bad`) is appended to `dead` instead.  Returns (successful
deliveries, dead list). -/
def broadcastLoop (bad : Sub → Bool) (message : String) (clients : List Sub) :
    List (Sub × String) × List Sub :=
  clients.foldl
    (fun acc c =>
      if bad c then (acc.1, acc.2 ++ [c])
      else (acc.1 ++ [(c, message ++ "\n")], acc.2))
    ([], [])

/-- `BridgeState.broadcast`: iterate the client list sending the framed
message, collect the sockets whose write raised, then remove each dead
socket from the list and close it.  All socket errors are caught, so the
function is total — it never raises to its caller. -/
def broadcast (bad : Sub → Bool) (st : BridgeState) (message : String) :
    BroadcastResult × BridgeState :=
  let (dv, dead) := broadcastLoop bad message st.tcp_clients
  let remaining := dead.foldl (fun l s => l.erase s) st.tcp_clients
  ({ delivered := dv, remaining := remaining, closed := dead },
   { st with tcp_clients := remaining })

/-! ## JSON encoding (`json.dumps` on flat int/string objects)

Python's `json.dumps` with default options: `ensure_ascii=True` (every
character outside `0x20`–`0x7E` is `\uXXXX`-escaped, astral characters as
a surrogate pair), item separator `", "`, key separator `": "`. -/

/-- Lower-case hexadecimal digit for a value `< 16`. -/
def hexDigitChar (n : Nat) : Char :=
  if n < 10 then Char.ofNat (48 + n) else Char.ofNat (87 + n)

/-- The four hexadecimal digits of a code unit `< 0x10000`. -/
def hex4 (n : Nat) : List Char :=
  [hexDigitChar (n / 4096 % 16), hexDigitChar (n / 256 % 16),
   hexDigitChar (n / 16 % 16), hexDigitChar (n % 16)]

/-- A `\uXXXX` escape for a code unit `< 0x10000`. -/
def uEscape (n : Nat) : List Char := '\\' :: 'u' :: hex4 n

/-- `json.dumps`'s escaping of one character of a string, per its
`ESCAPE_ASCII` table: `"` and `\` and the named control characters get
two-character escapes, printable ASCII is literal, everything else is
`\uXXXX` (a surrogate pair when above the BMP). -/
def escapeChar (c : Char) : List Char :=
  if c = '"' then ['\\', '"']
  else if c = '\\' then ['\\', '\\']
  else if c = '\n' then ['\\', 'n']
  else if c = '\r' then ['\\', 'r']
  else if c = '\t' then ['\\', 't']
  else if c = '\x08' then ['\\', 'b']
  else if c = '\x0c' then ['\\', 'f']
  else if 32 ≤ c.toNat && c.toNat ≤ 126 then [c]
  else if c.toNat < 65536 then uEscape c.toNat
  else
    uEscape (0xD800 + (c.toNat - 65536) / 1024) ++
    uEscape (0xDC00 + (c.toNat - 65536) % 1024)

/-- Escape every character of a string body. -/
def escapeChars (cs : List Char) : List Char :=
  cs.foldr (fun c acc => escapeChar c ++ acc) []

/-- A JSON string literal: `"` body `"`. -/
def encodeString (s : String) : List Char :=
  '"' :: escapeChars s.data ++ ['"']

/-- Decimal digit character for `d < 10`. -/
def digitChar (d : Nat) : Char := Char.ofNat (48 + d)

/-- Base-10 digits of a natural number, least significant first (`[]`
for `0`), computed with a structural fuel bound (`n` itself is always
enough fuel since a number has no more digits than its value). -/
def toDigitsLEF : Nat → Nat → List Nat
  | 0, _ => []
  | fuel + 1, n => if n = 0 then [] else n % 10 :: toDigitsLEF fuel (n / 10)

/-- Base-10 digits, least significant first. -/
def toDigitsLE (n : Nat) : List Nat := toDigitsLEF n n

/-- Decimal rendering of a natural number, as Python's `repr`. -/
def natDigits (n : Nat) : List Char :=
  if n = 0 then ['0'] else (toDigitsLE n).reverse.map digitChar

/-- Decimal rendering of a Python integer: optional `-`, then digits. -/
def intDigits (n : Int) : List Char :=
  if n < 0 then '-' :: natDigits n.natAbs else natDigits n.natAbs

/-- `json.dumps` of one value of our fragment. -/
def encodeJVal : JVal → List Char
  | .vInt n => intDigits n
  | .vStr s => encodeString s

/-- One `"key": value` item of an object literal. -/
def encodePair (p : String × JVal) : List Char :=
  encodeString p.1 ++ ':' :: ' ' :: encodeJVal p.2

/-- The items of an object literal joined by `", "`. -/
def encodeItems : Event → List Char
  | [] => []
  | [p] => encodePair p
  | p :: q :: e => encodePair p ++ ',' :: ' ' :: encodeItems (q :: e)

/-- `json.dumps` of an event: `{` items `}`.  This is the frame body the
bridge broadcasts (before the trailing newline is appended). -/
def encodeEventChars (e : Event) : List Char :=
  '\x7b' :: encodeItems e ++ ['\x7d']

/-- String form of the encoded frame body (`json_line` in `do_POST`). -/
def encodeEvent (e : Event) : String :=
  String.mk (encodeEventChars e)

/-! ## JSON decoding (`json.loads` on flat int/string objects)

Both the bridge's ingestion parse and the client's per-line parse call
`json.loads`; this embeds it restricted to the wire fragment: one object
literal whose values are integer literals or string literals.  (Payloads
outside the fragment — nested containers, floats, booleans, `null` — do
not occur on this wire and are rejected by the model.) -/

/-- JSON insignificant whitespace (`json.decoder.WHITESPACE`). -/
def jsonWs (c : Char) : Bool :=
  c = ' ' || c = '\t' || c = '\n' || c = '\r'

/-- Skip insignificant whitespace. -/
def skipWs (l : List Char) : List Char := l.dropWhile jsonWs

/-- Value of one hexadecimal digit character. -/
def hexVal (c : Char) : Option Nat :=
  if '0' ≤ c && c ≤ '9' then some (c.toNat - 48)
  else if 'a' ≤ c && c ≤ 'f' then some (c.toNat - 87)
  else if 'A' ≤ c && c ≤ 'F' then some (c.toNat - 55)
  else none

/-- Read exactly four hexadecimal digits (the body of a `\uXXXX`
escape). -/
def parseHex4 : List Char → Option (Nat × List Char)
  | a :: b :: c :: d :: rest =>
    match hexVal a, hexVal b, hexVal c, hexVal d with
    | some x, some y, some z, some w => some (x * 4096 + y * 256 + z * 16 + w, rest)
    | _, _, _, _ => none
  | _ => none

/-- Decode one short escape character (`\"`, `\\`, `\/`, `\b`, `\f`,
`\n`, `\r`, `\t`). -/
def escDecode (c : Char) : Option Char :=
  if c = '"' then some '"'
  else if c = '\\' then some '\\'
  else if c = '/' then some '/'
  else if c = 'b' then some '\x08'
  else if c = 'f' then some '\x0c'
  else if c = 'n' then some '\n'
  else if c = 'r' then some '\r'
  else if c = 't' then some '\t'
  else none

/-- Decode one `\uXXXX` escape body (after `\u`).  A high surrogate must
be followed by a low surrogate escape and the pair is recombined into one
astral character; lone surrogates are rejected (they cannot be
represented as `Char` and never occur in `json.dumps` output). -/
def parseUEsc (cs1 : List Char) : Option (Char × List Char) :=
  match parseHex4 cs1 with
  | none => none
  | some (n, cs2) =>
    if 0xD800 ≤ n ∧ n < 0xDC00 then
      if cs2.take 2 = ['\\', 'u'] then
        match parseHex4 (cs2.drop 2) with
        | none => none
        | some (m, cs4) =>
          if 0xDC00 ≤ m ∧ m < 0xE000 then
            some (Char.ofNat (65536 + (n - 0xD800) * 1024 + (m - 0xDC00)), cs4)
          else none
      else none
    else if 0xDC00 ≤ n ∧ n < 0xE000 then none
    else some (Char.ofNat n, cs2)

/-- Decode one backslash escape (after the backslash): `\uXXXX` or one of
the short escapes. -/
def parseEsc : List Char → Option (Char × List Char)
  | [] => none
  | e :: cs1 =>
    if e = 'u' then parseUEsc cs1
    else
      match escDecode e with
      | some d => some (d, cs1)
      | none => none

/-- One step inside a JSON string literal body: either the closing quote
(`.inl rest`) or one decoded character (`.inr (c, rest)`). -/
def parseOne (l : List Char) : Option (List Char ⊕ (Char × List Char)) :=
  match l with
  | [] => none
  | c :: cs =>
    if c = '"' then some (.inl cs)
    else if c = '\\' then
      match parseEsc cs with
      | some (d, rest) => some (.inr (d, rest))
      | none => none
    else some (.inr (c, cs))

/-- The body of a JSON string literal (after the opening quote): decode
characters until the closing quote, returning the decoded characters and
what follows the closing quote.  Fuel-bounded structural recursion: each
step consumes at least one input character, so `input length + 1` fuel
always suffices. -/
def parseJStringF : Nat → List Char → Option (List Char × List Char)
  | 0, _ => none
  | fuel + 1, l =>
    match parseOne l with
    | none => none
    | some (.inl rest) => some ([], rest)
    | some (.inr (c, rest)) =>
      match parseJStringF fuel rest with
      | none => none
      | some (s, r) => some (c :: s, r)

/-- JSON string literal body with its canonical fuel. -/
def parseJString (l : List Char) : Option (List Char × List Char) :=
  parseJStringF (l.length + 1) l

/-- An ASCII decimal digit (`0`–`9`). -/
def isDigitChar (c : Char) : Bool := 48 ≤ c.toNat && c.toNat ≤ 57

/-- A (non-empty) run of decimal digits, read as a natural number, as in
JSON's integer grammar. -/
def parseNat (l : List Char) : Option (Nat × List Char) :=
  let ds := l.takeWhile isDigitChar
  if ds.isEmpty then none
  else some (ds.foldl (fun a c => a * 10 + (c.toNat - 48)) 0, l.dropWhile isDigitChar)

/-- One JSON value of the wire fragment: a string literal or an integer
literal. -/
def parseJVal : List Char → Option (JVal × List Char)
  | [] => none
  | c :: cs =>
    if c = '"' then
      match parseJString cs with
      | some (s, r) => some (.vStr (String.mk s), r)
      | none => none
    else if c = '-' then
      match parseNat cs with
      | some (n, r) => some (.vInt (-(n : Int)), r)
      | none => none
    else if isDigitChar c then
      match parseNat (c :: cs) with
      | some (n, r) => some (.vInt (n : Int), r)
      | none => none
    else none

/-- The item list of a JSON object literal, starting at the opening quote
of the first key.  Consumes up to and including the closing brace and
returns the key/value items in source order.  Fuel-bounded structural
recursion: each item consumes at least one input character, so
`input length + 1` fuel always suffices. -/
def parseItemsF : Nat → List Char → Option (List (String × JVal) × List Char)
  | 0, _ => none
  | fuel + 1, l =>
    match l with
    | '"' :: l1 =>
      match parseJString l1 with
      | none => none
      | some (k, l2) =>
        match skipWs l2 with
        | ':' :: l3 =>
          match parseJVal (skipWs l3) with
          | none => none
          | some (v, l4) =>
            match skipWs l4 with
            | ',' :: l5 =>
              match parseItemsF fuel (skipWs l5) with
              | none => none
              | some (items, rest) => some ((String.mk k, v) :: items, rest)
            | '\x7d' :: l5 => some ([(String.mk k, v)], l5)
            | _ => none
        | _ => none
    | _ => none

/-- Object items with their canonical fuel. -/
def parseItems (l : List Char) : Option (List (String × JVal) × List Char) :=
  parseItemsF (l.length + 1) l
/-- A JSON object literal: `{`, optional items, `}`. -/
def parseObj (l : List Char) : Option (List (String × JVal) × List Char) :=
  match l with
  | '\x7b' :: rest =>
    match skipWs rest with
    | '\x7d' :: r1 => some ([], r1)
    | r1 => parseItems r1
  | _ => none

/-- A top-level `json.loads` result of the wire fragment: an object (a
Python dict) or a bare primitive value. -/
inductive JTop where
  | obj (e : Event)
  | prim (v : JVal)
deriving DecidableEq, Repr

/-- `json.loads` on the wire fragment: surrounding whitespace is
insignificant, the whole input must be consumed, an object literal
becomes a dict (duplicate keys: last occurrence wins).  Top-level JSON
documents outside the fragment (arrays, floats, booleans, `null`) do not
occur on this wire and are not modelled. -/
def parseJson (l : List Char) : Option JTop :=
  let r := skipWs l
  match parseObj r with
  | some (items, rest) =>
    if (skipWs rest).isEmpty then some (.obj (toDict items)) else none
  | none =>
    match parseJVal r with
    | some (v, rest) => if (skipWs rest).isEmpty then some (.prim v) else none
    | none => none

/-! ## The ingestion endpoint (`BridgeHTTPHandler.do_POST`) -/

/-- The fixed acknowledgment body sent to the producer before the body is
parsed. -/
def ackBody : String := "\x7b\"ok\":true\x7d"

/-- Observable outcome of one `do_POST` call.  `bcast` is `none` when no
broadcast happened; `crashed` records an uncaught exception after the ack
(a JSON body that is not a dict makes `event.get` raise
`AttributeError`, which nothing catches). -/
structure PostResult where
  response : String
  state : BridgeState
  bcast : Option BroadcastResult
  crashed : Bool
deriving DecidableEq, Repr

/-- `BridgeHTTPHandler.do_POST`: send the `200` acknowledgment, then
`json.loads` the body (a decode error returns silently); increment
`event_count`; normalize; `json.dumps`; broadcast to the TCP clients. -/
def do_POST (bad : Sub → Bool) (st : BridgeState) (body : String) : PostResult :=
  match parseJson body.data with
  | none => ⟨ackBody, st, none, false⟩
  | some (.prim _) =>
    ⟨ackBody, { st with event_count := st.event_count + 1 }, none, true⟩
  | some (.obj event) =>
    let c := st.event_count + 1
    let out := normalize c event
    let line := encodeEvent out
    let (res, st') := broadcast bad { st with event_count := c } line
    ⟨ackBody, st', some res, false⟩

/-! ## The client stream reader (`connect` in `audio_socket_client.py`) -/

/-- What the read loop does with one complete frame line: dispatch the
decoded event to the handler, or report one malformed-frame error. -/
inductive Msg where
  | event (t : JTop)
  | malformed (raw : String)
deriving DecidableEq, Repr

/-- Python `str.strip()` whitespace (the ASCII whitespace characters). -/
def pyWs (c : Char) : Bool :=
  c = ' ' || c = '\t' || c = '\n' || c = '\r' || c = '\x0b' || c = '\x0c'

/-- Python `line.strip()`. -/
def strip (l : List Char) : List Char :=
  ((l.dropWhile pyWs).reverse.dropWhile pyWs).reverse

/-- The body of the client's inner loop for one extracted line:
`line = line.strip(); if line: try json.loads / except JSONDecodeError`.
Returns `none` when the stripped line is empty (nothing dispatched). -/
def processLine (line : List Char) : Option Msg :=
  let t := strip line
  if t.isEmpty then none
  else
    match parseJson t with
    | some v => some (.event v)
    | none => some (.malformed (String.mk t))

/-- `buffer.split("\n", 1)`: the text before the first newline and the
text after it, or `none` when the buffer holds no newline. -/
def split1 : List Char → Option (List Char × List Char)
  | [] => none
  | c :: cs =>
    if c = '\n' then some ([], cs)
    else (split1 cs).map (fun p => (c :: p.1, p.2))

/-- All complete (newline-terminated) lines of the buffer, in order, and
the unterminated remainder. -/
def splitChunks : List Char → List (List Char) × List Char
  | [] => ([], [])
  | c :: cs =>
    match splitChunks cs with
    | (ls, r) =>
      if c = '\n' then ([] :: ls, r)
      else
        match ls with
        | [] => ([], c :: r)
        | l :: ls1 => ((c :: l) :: ls1, r)

/-- `splitChunks` satisfies exactly the unfolding of the client's
`while "\n" in buffer: line, buffer = buffer.split("\n", 1)` loop: if the
buffer holds no newline nothing is extracted, otherwise the text before
the first newline is the next line and the loop continues on the text
after it. -/
theorem splitChunks_loop (buf : List Char) :
    splitChunks buf =
      match split1 buf with
      | none => ([], buf)
      | some (line, rest) =>
        (line :: (splitChunks rest).1, (splitChunks rest).2) := by
  induction buf with
  | nil => rfl
  | cons c cs ih =>
    by_cases hc : c = '\n'
    · subst hc
      simp [splitChunks, split1]
    · cases hs : split1 cs with
      | none =>
        have ih2 : splitChunks cs = ([], cs) := by rw [ih, hs]
        simp [splitChunks, ih2, split1, hc, hs]
      | some p =>
        obtain ⟨line, rest⟩ := p
        simp only [splitChunks, split1, hc, if_neg, hs, Option.map_some]
        rw [ih]
        simp [hs]

/-- The client's `while "\n" in buffer` loop: extract every complete
line of the buffer in order, process each
(strip → skip empty → `json.loads` → dispatch or report), and keep the
unterminated remainder as the new buffer. -/
def drain (buf : List Char) : List Msg × List Char :=
  ((splitChunks buf).1.filterMap processLine, (splitChunks buf).2)

/-- The client's outer read loop over a given sequence of reads, after
UTF-8 decoding: append each chunk to the buffer and drain complete
lines. -/
def runChunks (buf : List Char) : List (List Char) → List Msg × List Char
  | [] => ([], buf)
  | chunk :: rest =>
    let (ms, buf1) := drain (buf ++ chunk)
    let (ms2, buf2) := runChunks buf1 rest
    (ms ++ ms2, buf2)

/-- A UTF-8 continuation byte. -/
def utf8Cont (b : Nat) : Bool := 0x80 ≤ b && b < 0xC0

/-- Strict decoding of one UTF-8-encoded character from the front of a
byte list: rejects truncated, overlong, surrogate and out-of-range
sequences (as Python's strict `"utf-8"` codec does). -/
def utf8Step : List Nat → Option (Char × List Nat)
  | [] => none
  | b :: bs =>
    if b < 0x80 then some (Char.ofNat b, bs)
    else if b < 0xC2 then none
    else if b < 0xE0 then
      match bs with
      | b1 :: bs1 =>
        if utf8Cont b1 then some (Char.ofNat ((b - 0xC0) * 64 + (b1 - 0x80)), bs1)
        else none
      | [] => none
    else if b < 0xF0 then
      match bs with
      | b1 :: b2 :: bs2 =>
        if utf8Cont b1 && utf8Cont b2 then
          let n := (b - 0xE0) * 4096 + (b1 - 0x80) * 64 + (b2 - 0x80)
          if n < 0x800 || (0xD800 ≤ n && n < 0xE000) then none
          else some (Char.ofNat n, bs2)
        else none
      | _ => none
    else if b < 0xF5 then
      match bs with
      | b1 :: b2 :: b3 :: bs3 =>
        if utf8Cont b1 && utf8Cont b2 && utf8Cont b3 then
          let n := (b - 0xF0) * 262144 + (b1 - 0x80) * 4096 + (b2 - 0x80) * 64 + (b3 - 0x80)
          if n < 0x10000 || 0x10FFFF < n then none
          else some (Char.ofNat n, bs3)
        else none
      | _ => none
    else none

/-- Strict UTF-8 decoding of a whole chunk, character by character.
Fuel-bounded structural recursion: each character consumes at least one
byte, so the chunk length is always enough fuel. -/
def utf8DecodeF : Nat → List Nat → Option (List Char)
  | _, [] => some []
  | 0, _ :: _ => none
  | fuel + 1, b :: bs =>
    match utf8Step (b :: bs) with
    | none => none
    | some (c, rest) =>
      match utf8DecodeF fuel rest with
      | none => none
      | some cs => some (c :: cs)

/-- Strict UTF-8 decoding of one received chunk, as
`data.decode("utf-8")`. -/
def utf8Decode (l : List Nat) : Option (List Char) := utf8DecodeF l.length l

/-- The client's read loop at the byte level: each read's bytes go
through `data.decode("utf-8")` before joining the buffer.  A chunk whose
bytes are not valid UTF-8 on their own raises `UnicodeDecodeError`, which
nothing catches: the loop aborts (third component `true`), dropping the
remaining reads. -/
def runBytes (buf : List Char) : List (List Nat) → List Msg × List Char × Bool
  | [] => ([], buf, false)
  | chunk :: rest =>
    match utf8Decode chunk with
    | none => ([], buf, true)
    | some cs =>
      let (ms, buf1) := drain (buf ++ cs)
      let (ms2, buf2, ab) := runBytes buf1 rest
      (ms ++ ms2, buf2, ab)

/-- A byte stream composed of given lines, each terminated by one
newline. -/
def renderLines (ls : List (List Char)) : List Char :=
  (ls.map (fun l => l ++ ['\n'])).flatten

/-! ## Registry lemmas -/

theorem broadcastLoop_eq (bad : Sub → Bool) (message : String) (clients : List Sub) :
    broadcastLoop bad message clients =
      ((clients.filter (fun c => !bad c)).map (fun c => (c, message ++ "\n")),
       clients.filter bad) := by
  suffices h : ∀ acc : List (Sub × String) × List Sub,
      clients.foldl
        (fun acc c =>
          if bad c then (acc.1, acc.2 ++ [c])
          else (acc.1 ++ [(c, message ++ "\n")], acc.2)) acc =
      (acc.1 ++ (clients.filter (fun c => !bad c)).map (fun c => (c, message ++ "\n")),
       acc.2 ++ clients.filter bad) by
    simpa [broadcastLoop] using h ([], [])
  induction clients with
  | nil => intro acc; simp
  | cons a t ih =>
    intro acc
    by_cases hb : bad a
    · simp only [List.foldl_cons, hb, if_pos, List.filter_cons, ih,
        Bool.not_true, List.map]
      simp [hb, List.append_assoc]
    · simp only [List.foldl_cons, hb, if_neg, List.filter_cons, ih,
        Bool.not_false, List.map]
      simp [hb, List.append_assoc]

theorem foldl_erase_cons {α : Type} [DecidableEq α] (a : α) (l ds : List α)
    (h : ∀ d ∈ ds, d ≠ a) :
    ds.foldl (fun l s => l.erase s) (a :: l) =
      a :: ds.foldl (fun l s => l.erase s) l := by
  induction ds generalizing l with
  | nil => rfl
  | cons d t ih =>
    have hda : d ≠ a := h d (by simp)
    simp only [List.foldl_cons]
    rw [List.erase_cons_tail (by simp [Ne.symm hda])]
    exact ih _ (fun x hx => h x (by simp [hx]))

theorem foldl_erase_filter (p : Sub → Bool) (l : List Sub) :
    (l.filter p).foldl (fun l s => l.erase s) l = l.filter (fun c => !p c) := by
  induction l with
  | nil => rfl
  | cons a t ih =>
    by_cases hp : p a
    · rw [List.filter_cons_of_pos hp, List.filter_cons_of_neg (by simp [hp]),
        List.foldl_cons, List.erase_cons_head]
      exact ih
    · have hne : ∀ d ∈ t.filter p, d ≠ a := by
        intro d hd hda
        subst hda
        exact hp (List.of_mem_filter hd)
      rw [List.filter_cons_of_neg (by simpa using hp),
        List.filter_cons_of_pos (by simp [hp]),
        foldl_erase_cons a t (t.filter p) hne, ih]

theorem broadcast_eq (bad : Sub → Bool) (st : BridgeState) (message : String) :
    broadcast bad st message =
      ({ delivered := (st.tcp_clients.filter (fun c => !bad c)).map
           (fun c => (c, message ++ "\n")),
         remaining := st.tcp_clients.filter (fun c => !bad c),
         closed := st.tcp_clients.filter bad },
       { st with tcp_clients := st.tcp_clients.filter (fun c => !bad c) }) := by
  rw [broadcast, broadcastLoop_eq]
  simp only [foldl_erase_filter]

/-! ## The claims -/

/-- C4.  `broadcast` attempts each subscriber (every registered handle is
either delivered to or collected as dead and closed); a write failure on
one subscriber does not prevent delivery to any other subscriber; the
call is a total function (every caught `sendall` error is converted to a
removal, never re-raised); each failing subscriber is removed from the
registry and closed; every non-failing subscriber remains registered and
no one else is closed. -/
theorem broadcast_partial_failure (bad : Sub → Bool) (st : BridgeState)
    (message : String) :
    (∀ c ∈ st.tcp_clients,
        (c, message ++ "\n") ∈ (broadcast bad st message).1.delivered ∨
        c ∈ (broadcast bad st message).1.closed) ∧
    (∀ c ∈ st.tcp_clients, bad c = false →
        (c, message ++ "\n") ∈ (broadcast bad st message).1.delivered) ∧
    (∀ c ∈ st.tcp_clients, bad c = true →
        c ∈ (broadcast bad st message).1.closed ∧
        c ∉ (broadcast bad st message).1.remaining) ∧
    (∀ c ∈ st.tcp_clients, bad c = false →
        c ∈ (broadcast bad st message).1.remaining) ∧
    (∀ c ∈ (broadcast bad st message).1.closed, bad c = true) ∧
    (broadcast bad st message).2.tcp_clients =
      (broadcast bad st message).1.remaining := by
  rw [broadcast_eq]
  refine ⟨?_, ?_, ?_, ?_, ?_, rfl⟩
  · intro c hc
    by_cases hb : bad c
    · exact Or.inr (List.mem_filter.2 ⟨hc, hb⟩)
    · exact Or.inl (List.mem_map.2 ⟨c, List.mem_filter.2 ⟨hc, by simp [hb]⟩, rfl⟩)
  · intro c hc hb
    exact List.mem_map.2 ⟨c, List.mem_filter.2 ⟨hc, by simp [hb]⟩, rfl⟩
  · intro c hc hb
    refine ⟨List.mem_filter.2 ⟨hc, hb⟩, ?_⟩
    intro hmem
    have := (List.mem_filter.1 hmem).2
    simp [hb] at this
  · intro c hc hb
    exact List.mem_filter.2 ⟨hc, by simp [hb]⟩
  · intro c hc
    exact (List.mem_filter.1 hc).2

/-- C8, counterexample.  `add_client` appends unconditionally, so
registering the same handle twice makes one `broadcast` deliver the frame
to that handle twice — `add` is not idempotent in effect. -/
theorem add_client_not_idempotent :
    ((broadcast (fun _ => false) (addClient (addClient ⟨[], 0⟩ 5) 5) "m").1.delivered.count
        (5, "m\n") = 2) ∧ (2 : Nat) ≠ 1 := by
  constructor
  · rfl
  · decide

/-- C8, amended.  `add_client` appends its argument unconditionally, so a
broadcast delivers the frame to a (non-failing) handle once per
registration: the delivery count equals the handle's multiplicity in the
registry.  In particular a handle registered once is delivered to exactly
once, and a handle registered twice is delivered to twice. -/
theorem broadcast_delivery_count (bad : Sub → Bool) (st : BridgeState)
    (message : String) (s : Sub) (h : bad s = false) :
    (broadcast bad st message).1.delivered.countP (fun p => p.1 == s) =
      st.tcp_clients.count s := by
  rw [broadcast_eq]
  simp only
  rw [List.countP_map]
  change List.count s (st.tcp_clients.filter (fun c => !bad c)) = _
  exact List.count_filter (by simp [h])

/-- C8, amended, witness: a registry holding handle `5` twice, with no
write failures, double-delivers to it. -/
theorem broadcast_delivery_count_witness :
    (fun _ => false : Sub → Bool) 5 = false ∧
    (broadcast (fun _ => false) ⟨[5, 5], 0⟩ "m").1.delivered.countP (fun p => p.1 == 5) =
      List.count 5 [5, 5] :=
  ⟨rfl, broadcast_delivery_count (fun _ => false) ⟨[5, 5], 0⟩ "m" 5 rfl⟩

/-! ## Normalization lemmas -/

theorem lookup_append (l1 l2 : Event) (k : String) :
    (l1 ++ l2).lookup k = (l1.lookup k).or (l2.lookup k) := by
  induction l1 with
  | nil => simp
  | cons p t ih =>
    obtain ⟨k1, v1⟩ := p
    by_cases hk : k = k1
    · subst hk
      simp [List.lookup_cons]
    · simp only [List.cons_append, List.lookup_cons, beq_false_of_ne hk]
      exact ih

theorem optField_lookup_ne (e : Event) (k k' : String) (h : k' ≠ k) :
    (optField e k).lookup k' = none := by
  unfold optField
  cases e.lookup k with
  | none => rfl
  | some v =>
    by_cases hv : v.truthy <;> simp [hv, List.lookup_cons, beq_false_of_ne h]

theorem optField_lookup_self (e : Event) (k : String)
    (h : optTruthy (e.lookup k) = true) :
    (optField e k).lookup k = e.lookup k := by
  unfold optField
  cases hv : e.lookup k with
  | none => simp [hv, optTruthy] at h
  | some v =>
    rw [hv] at h
    simp only [optTruthy] at h
    simp [h, List.lookup_cons]

theorem animField_lookup_ne (e : Event) (k' : String) (h : k' ≠ "sourceAnimation") :
    (animField e).lookup k' = none := by
  unfold animField
  cases e.lookup "sourceAnimation" with
  | none => rfl
  | some v =>
    by_cases hv : (v.truthy && v != .vInt (-1)) = true
    · simp [hv, List.lookup_cons, beq_false_of_ne h]
    · simp [hv]

/-- The nine core field names of the claim. -/
def coreKeys : List String :=
  ["type", "soundId", "delay", "timestamp", "sourceName", "sourceAnimation",
   "sceneX", "sceneY", "range"]

/-- The four designated colosim pass-through field names. -/
def passKeys : List String := ["soundFile", "soundUrl", "attackType", "source"]

theorem coreFields_lookup_none (c : Nat) (ev : Event) (k : String)
    (h1 : k ≠ "type") (h2 : k ≠ "soundId") (h3 : k ≠ "delay") (h4 : k ≠ "timestamp")
    (h5 : k ≠ "sceneX") (h6 : k ≠ "sceneY") (h7 : k ≠ "range") :
    (coreFields c ev).lookup k = none := by
  simp [coreFields, List.lookup_cons, beq_false_of_ne h1, beq_false_of_ne h2,
    beq_false_of_ne h3, beq_false_of_ne h4, beq_false_of_ne h5, beq_false_of_ne h6,
    beq_false_of_ne h7]

theorem optTruthy_isSome {o : Option JVal} (h : optTruthy o = true) :
    ∃ v, o = some v ∧ v.truthy = true := by
  cases o with
  | none => simp [optTruthy] at h
  | some v => exact ⟨v, rfl, h⟩

theorem normalize_pass_lookup (c : Nat) (event : Event) (k : String)
    (hk : k = "soundFile" ∨ k = "soundUrl" ∨ k = "attackType" ∨ k = "source")
    (h : optTruthy (event.lookup k) = true) :
    (normalize c event).lookup k = event.lookup k := by
  obtain ⟨v, hv, htr⟩ := optTruthy_isSome h
  rcases hk with rfl | rfl | rfl | rfl <;>
    (simp only [normalize, lookup_append]
     rw [coreFields_lookup_none _ _ _ (by decide) (by decide) (by decide) (by decide)
           (by decide) (by decide) (by decide),
         optField_lookup_ne _ _ _ (by decide), animField_lookup_ne _ _ (by decide)]) <;>
    (try rw [optField_lookup_self _ _ h]) <;>
    (try rw [optField_lookup_ne event "soundFile" _ (by decide)]) <;>
    (try rw [optField_lookup_ne event "soundUrl" _ (by decide)]) <;>
    (try rw [optField_lookup_ne event "attackType" _ (by decide)]) <;>
    (try rw [optField_lookup_self _ _ h]) <;>
    simp [hv]

theorem optField_lookup_eq (e : Event) (k : String) :
    (optField e k).lookup k =
      match e.lookup k with
      | some v => if v.truthy then some v else none
      | none => none := by
  unfold optField
  cases e.lookup k with
  | none => rfl
  | some v =>
    by_cases hv : v.truthy <;> simp [hv, List.lookup_cons]

theorem animField_lookup_eq (e : Event) :
    (animField e).lookup "sourceAnimation" =
      match e.lookup "sourceAnimation" with
      | some v => if v.truthy && v != .vInt (-1) then some v else none
      | none => none := by
  unfold animField
  cases e.lookup "sourceAnimation" with
  | none => rfl
  | some v =>
    by_cases hv : (v.truthy && v != .vInt (-1)) = true <;> simp [hv, List.lookup_cons]

theorem normalize_lookup_sourceName (c : Nat) (event : Event) :
    (normalize c event).lookup "sourceName" =
      match event.lookup "sourceName" with
      | some v => if v.truthy then some v else none
      | none => none := by
  simp only [normalize, lookup_append]
  rw [coreFields_lookup_none _ _ _ (by decide) (by decide) (by decide) (by decide)
        (by decide) (by decide) (by decide),
      animField_lookup_ne _ _ (by decide),
      optField_lookup_ne event "soundFile" _ (by decide),
      optField_lookup_ne event "soundUrl" _ (by decide),
      optField_lookup_ne event "attackType" _ (by decide),
      optField_lookup_ne event "source" _ (by decide),
      optField_lookup_eq]
  simp [Option.none_or, Option.or_none]

theorem normalize_lookup_sourceAnimation (c : Nat) (event : Event) :
    (normalize c event).lookup "sourceAnimation" =
      match event.lookup "sourceAnimation" with
      | some v => if v.truthy && v != .vInt (-1) then some v else none
      | none => none := by
  simp only [normalize, lookup_append]
  rw [coreFields_lookup_none _ _ _ (by decide) (by decide) (by decide) (by decide)
        (by decide) (by decide) (by decide),
      optField_lookup_ne event "sourceName" _ (by decide),
      optField_lookup_ne event "soundFile" _ (by decide),
      optField_lookup_ne event "soundUrl" _ (by decide),
      optField_lookup_ne event "attackType" _ (by decide),
      optField_lookup_ne event "source" _ (by decide),
      animField_lookup_eq]
  simp [Option.none_or, Option.or_none]

/-! ## Claim C1 -/

/-- C1, counterexample.  A raw producer event carrying the extra
non-core field `"foo": "bar"` is accepted by the ingestion endpoint, but
the frame that is encoded and broadcast decodes to an event with no
`"foo"` field at all: the pass-through field is dropped. -/
theorem passthrough_dropped_cex :
    parseJson "\x7b\"soundId\": 1, \"foo\": \"bar\"\x7d".data =
      some (.obj [("soundId", .vInt 1), ("foo", .vStr "bar")]) ∧
    "foo" ∉ coreKeys ∧
    (do_POST (fun _ => false) ⟨[1], 0⟩ "\x7b\"soundId\": 1, \"foo\": \"bar\"\x7d").bcast =
      some { delivered := [(1, "\x7b\"type\": \"AREA_SOUND_EFFECT\", \"soundId\": 1, \"delay\": 0, \"timestamp\": 0, \"sceneX\": 0, \"sceneY\": 0, \"range\": 15\x7d\n")],
             remaining := [1], closed := [] } ∧
    runChunks [] ["\x7b\"type\": \"AREA_SOUND_EFFECT\", \"soundId\": 1, \"delay\": 0, \"timestamp\": 0, \"sceneX\": 0, \"sceneY\": 0, \"range\": 15\x7d\n".data] =
      ([.event (.obj
        [("type", .vStr "AREA_SOUND_EFFECT"), ("soundId", .vInt 1),
         ("delay", .vInt 0), ("timestamp", .vInt 0), ("sceneX", .vInt 0),
         ("sceneY", .vInt 0), ("range", .vInt 15)])], []) ∧
    List.lookup "foo"
        [("type", JVal.vStr "AREA_SOUND_EFFECT"), ("soundId", JVal.vInt 1),
         ("delay", JVal.vInt 0), ("timestamp", JVal.vInt 0), ("sceneX", JVal.vInt 0),
         ("sceneY", JVal.vInt 0), ("range", JVal.vInt 15)] = none :=
  ⟨rfl, by decide, rfl, rfl, rfl⟩

/-- C1, amended.  Normalization preserves only the four designated
pass-through fields `soundFile`, `soundUrl`, `attackType`, `source`
(each verbatim, and only when its raw value is truthy); every other
additional named field outside the nine core fields is dropped from the
normalized event. -/
theorem normalize_passthrough_amended (c : Nat) (event : Event) :
    ((optTruthy (event.lookup "soundFile") = true →
        (normalize c event).lookup "soundFile" = event.lookup "soundFile") ∧
     (optTruthy (event.lookup "soundUrl") = true →
        (normalize c event).lookup "soundUrl" = event.lookup "soundUrl") ∧
     (optTruthy (event.lookup "attackType") = true →
        (normalize c event).lookup "attackType" = event.lookup "attackType") ∧
     (optTruthy (event.lookup "source") = true →
        (normalize c event).lookup "source" = event.lookup "source")) ∧
    (∀ k, k ∉ coreKeys → k ∉ passKeys → (normalize c event).lookup k = none) := by
  refine ⟨⟨fun h => normalize_pass_lookup c event _ (by simp) h,
           fun h => normalize_pass_lookup c event _ (by simp) h,
           fun h => normalize_pass_lookup c event _ (by simp) h,
           fun h => normalize_pass_lookup c event _ (by simp) h⟩, ?_⟩
  intro k hk hp
  simp only [coreKeys, List.mem_cons, List.not_mem_nil, or_false, not_or] at hk
  simp only [passKeys, List.mem_cons, List.not_mem_nil, or_false, not_or] at hp
  obtain ⟨n1, n2, n3, n4, n5, n6, n7, n8, n9⟩ := hk
  obtain ⟨m1, m2, m3, m4⟩ := hp
  simp only [normalize, lookup_append]
  rw [coreFields_lookup_none _ _ _ n1 n2 n3 n4 n7 n8 n9,
    optField_lookup_ne _ _ _ n5, animField_lookup_ne _ _ n6,
    optField_lookup_ne _ _ _ m1, optField_lookup_ne _ _ _ m2,
    optField_lookup_ne _ _ _ m3, optField_lookup_ne _ _ _ m4]
  rfl

/-- C1, amended, witness: a truthy `soundFile` is preserved, an unknown
field `"x"` is dropped. -/
theorem normalize_passthrough_amended_witness :
    optTruthy (List.lookup "soundFile"
        ([("soundFile", JVal.vStr "f.wav"), ("x", JVal.vStr "y")] : Event)) = true ∧
    (normalize 7 [("soundFile", .vStr "f.wav"), ("x", .vStr "y")]).lookup "soundFile" =
      List.lookup "soundFile"
        ([("soundFile", JVal.vStr "f.wav"), ("x", JVal.vStr "y")] : Event) ∧
    "x" ∉ coreKeys ∧ "x" ∉ passKeys ∧
    (normalize 7 [("soundFile", .vStr "f.wav"), ("x", .vStr "y")]).lookup "x" = none :=
  ⟨rfl,
   (normalize_passthrough_amended 7 [("soundFile", .vStr "f.wav"), ("x", .vStr "y")]).1.1 rfl,
   by decide, by decide,
   (normalize_passthrough_amended 7 [("soundFile", .vStr "f.wav"), ("x", .vStr "y")]).2
     "x" (by decide) (by decide)⟩

/-! ## Claim C10 -/

/-- C10.  Normalization filters the optional source fields by Python
truthiness, not only by the documented sentinels: a `sourceName` is kept
only when present and a non-empty string (so `""` is silently omitted),
and a `sourceAnimation` is kept only when present, not `-1` and not `0`
(so `0` is silently omitted although the spec documents only `-1` and
absence as meaning "none"). -/
theorem normalize_truthiness_filter (c : Nat) (event : Event) :
    (∀ s, event.lookup "sourceName" = some (.vStr s) →
        (normalize c event).lookup "sourceName" =
          if s = "" then none else some (.vStr s)) ∧
    (event.lookup "sourceName" = none →
        (normalize c event).lookup "sourceName" = none) ∧
    (∀ n, event.lookup "sourceAnimation" = some (.vInt n) →
        (normalize c event).lookup "sourceAnimation" =
          if n = 0 ∨ n = -1 then none else some (.vInt n)) ∧
    (event.lookup "sourceAnimation" = none →
        (normalize c event).lookup "sourceAnimation" = none) := by
  refine ⟨?_, ?_, ?_, ?_⟩
  · intro s hs
    rw [normalize_lookup_sourceName, hs]
    by_cases h : s = "" <;> simp [h, JVal.truthy]
  · intro hs
    rw [normalize_lookup_sourceName, hs]
  · intro n hn
    rw [normalize_lookup_sourceAnimation, hn]
    by_cases h0 : n = 0
    · simp [h0, JVal.truthy]
    · by_cases h1 : n = -1 <;> simp [h0, h1, JVal.truthy]
  · intro hn
    rw [normalize_lookup_sourceAnimation, hn]

/-- C10, witness: an event carrying `sourceName: ""` and
`sourceAnimation: 0` loses both fields in normalization. -/
theorem normalize_truthiness_filter_witness :
    List.lookup "sourceName"
        ([("sourceName", JVal.vStr ""), ("sourceAnimation", JVal.vInt 0)] : Event) =
      some (.vStr "") ∧
    (normalize 3 [("sourceName", .vStr ""), ("sourceAnimation", .vInt 0)]).lookup
        "sourceName" = none ∧
    List.lookup "sourceAnimation"
        ([("sourceName", JVal.vStr ""), ("sourceAnimation", JVal.vInt 0)] : Event) =
      some (.vInt 0) ∧
    (normalize 3 [("sourceName", .vStr ""), ("sourceAnimation", .vInt 0)]).lookup
        "sourceAnimation" = none :=
  ⟨rfl,
   by
     have h := (normalize_truthiness_filter 3
       [("sourceName", .vStr ""), ("sourceAnimation", .vInt 0)]).1 "" rfl
     simpa using h,
   rfl,
   by
     have h := (normalize_truthiness_filter 3
       [("sourceName", .vStr ""), ("sourceAnimation", .vInt 0)]).2.2.1 0 rfl
     simpa using h⟩

/-! ## Ingestion lemmas -/

theorem normalize_lookup_soundId (c : Nat) (ev : Event) :
    (normalize c ev).lookup "soundId" = some ((ev.lookup "soundId").getD (.vInt c)) := by
  simp only [normalize, lookup_append]
  rw [show (coreFields c ev).lookup "soundId" =
        some ((ev.lookup "soundId").getD (.vInt c)) from by
      simp [coreFields, List.lookup_cons]]
  simp

/-! ## Claim C7 -/

/-- C7.  A request body that `json.loads` rejects still gets the fixed
success acknowledgment (which the handler sends before it parses
anything), and the event is silently dropped: no broadcast occurs, the
event counter is not incremented, the subscriber registry is unchanged,
and no exception escapes the handler. -/
theorem ingest_parse_failure_silent (bad : Sub → Bool) (st : BridgeState)
    (body : String) (h : parseJson body.data = none) :
    do_POST bad st body = ⟨ackBody, st, none, false⟩ := by
  simp [do_POST, h]

/-- C7, witness: the body `"not json"` is acknowledged and silently
dropped, with the registry and counter untouched. -/
theorem ingest_parse_failure_silent_witness :
    parseJson "not json".data = none ∧
    do_POST (fun _ => false) ⟨[1, 2], 5⟩ "not json" =
      ⟨ackBody, ⟨[1, 2], 5⟩, none, false⟩ :=
  ⟨rfl, ingest_parse_failure_silent (fun _ => false) ⟨[1, 2], 5⟩ "not json" rfl⟩

/-! ## Claim C6 -/

/-- C6.  The event counter is incremented exactly once per accepted
(parsed) event, whether or not the event carried a `soundId`; an event
whose `soundId` is omitted is normalized with the freshly incremented
counter value as its `soundId`, and the frame broadcast for it encodes
exactly that normalized event — so two successively ingested events with
`soundId` omitted receive the fallback identifiers `count+1` and
`count+2`, which are distinct and strictly increasing. -/
theorem counter_increment_and_fallback (bad : Sub → Bool) :
    (∀ (st : BridgeState) (body : String) (e : Event),
        parseJson body.data = some (.obj e) →
        (do_POST bad st body).state.event_count = st.event_count + 1) ∧
    (∀ (st : BridgeState) (body1 body2 : String) (e1 e2 : Event),
        parseJson body1.data = some (.obj e1) →
        parseJson body2.data = some (.obj e2) →
        e1.lookup "soundId" = none →
        e2.lookup "soundId" = none →
        (do_POST bad st body1).bcast =
          some (broadcast bad { st with event_count := st.event_count + 1 }
            (encodeEvent (normalize (st.event_count + 1) e1))).1 ∧
        (do_POST bad (do_POST bad st body1).state body2).bcast =
          some (broadcast bad
            { (do_POST bad st body1).state with event_count := st.event_count + 2 }
            (encodeEvent (normalize (st.event_count + 2) e2))).1 ∧
        (normalize (st.event_count + 1) e1).lookup "soundId" =
          some (.vInt (st.event_count + 1)) ∧
        (normalize (st.event_count + 2) e2).lookup "soundId" =
          some (.vInt (st.event_count + 2)) ∧
        st.event_count + 1 ≠ st.event_count + 2 ∧
        st.event_count + 1 < st.event_count + 2) := by
  have hcount : ∀ (st : BridgeState) (body : String) (e : Event),
      parseJson body.data = some (.obj e) →
      (do_POST bad st body).state.event_count = st.event_count + 1 := by
    intro st body e h
    simp [do_POST, h, broadcast_eq]
  refine ⟨hcount, ?_⟩
  intro st body1 body2 e1 e2 h1 h2 hs1 hs2
  have hc1 := hcount st body1 e1 h1
  refine ⟨by simp [do_POST, h1], ?_, ?_, ?_, by omega, by omega⟩
  · rw [show st.event_count + 2 = (do_POST bad st body1).state.event_count + 1 from by omega]
    simp [do_POST, h2]
  · rw [normalize_lookup_soundId, hs1]
    rfl
  · rw [normalize_lookup_soundId, hs2]
    rfl

/-- C6, witness: from a fresh bridge, two bodies without `soundId` get
the fallback identifiers 1 and 2. -/
theorem counter_increment_and_fallback_witness :
    parseJson "\x7b\"delay\": 1\x7d".data = some (.obj [("delay", .vInt 1)]) ∧
    parseJson "\x7b\x7d".data = some (.obj []) ∧
    List.lookup "soundId" ([("delay", JVal.vInt 1)] : Event) = none ∧
    List.lookup "soundId" ([] : Event) = none ∧
    (do_POST (fun _ => false) ⟨[], 0⟩ "\x7b\"delay\": 1\x7d").state.event_count = 1 ∧
    (normalize 1 [("delay", .vInt 1)]).lookup "soundId" = some (.vInt 1) ∧
    (normalize 2 ([] : Event)).lookup "soundId" = some (.vInt 2) := by
  refine ⟨rfl, rfl, rfl, rfl, ?_, ?_, ?_⟩
  · exact (counter_increment_and_fallback (fun _ => false)).1 ⟨[], 0⟩ _ _ rfl
  · exact ((counter_increment_and_fallback (fun _ => false)).2 ⟨[], 0⟩
      "\x7b\"delay\": 1\x7d" "\x7b\x7d" _ _ rfl rfl rfl rfl).2.2.1
  · exact ((counter_increment_and_fallback (fun _ => false)).2 ⟨[], 0⟩
      "\x7b\"delay\": 1\x7d" "\x7b\x7d" _ _ rfl rfl rfl rfl).2.2.2.1

/-! ## Claim C9 -/

/-- C9, counterexample.  Ingesting the event `{"soundId": 2498}` with no
other fields, with two subscribers connected, delivers one frame to each
subscriber — but that frame decodes to an event whose kind is the default
`AREA_SOUND_EFFECT`, not the point-sound kind `SOUND_EFFECT`: when the
producer omits the kind, `do_POST` defaults it to `AREA_SOUND_EFFECT`. -/
theorem point_sound_scenario_cex :
    (do_POST (fun _ => false) ⟨[1, 2], 0⟩ "\x7b\"soundId\": 2498\x7d").bcast =
      some { delivered :=
               [(1, "\x7b\"type\": \"AREA_SOUND_EFFECT\", \"soundId\": 2498, \"delay\": 0, \"timestamp\": 0, \"sceneX\": 0, \"sceneY\": 0, \"range\": 15\x7d\n"),
                (2, "\x7b\"type\": \"AREA_SOUND_EFFECT\", \"soundId\": 2498, \"delay\": 0, \"timestamp\": 0, \"sceneX\": 0, \"sceneY\": 0, \"range\": 15\x7d\n")],
             remaining := [1, 2], closed := [] } ∧
    runChunks [] ["\x7b\"type\": \"AREA_SOUND_EFFECT\", \"soundId\": 2498, \"delay\": 0, \"timestamp\": 0, \"sceneX\": 0, \"sceneY\": 0, \"range\": 15\x7d\n".data] =
      ([.event (.obj
        [("type", .vStr "AREA_SOUND_EFFECT"), ("soundId", .vInt 2498),
         ("delay", .vInt 0), ("timestamp", .vInt 0), ("sceneX", .vInt 0),
         ("sceneY", .vInt 0), ("range", .vInt 15)])], []) ∧
    List.lookup "type"
        [("type", JVal.vStr "AREA_SOUND_EFFECT"), ("soundId", JVal.vInt 2498),
         ("delay", JVal.vInt 0), ("timestamp", JVal.vInt 0), ("sceneX", JVal.vInt 0),
         ("sceneY", JVal.vInt 0), ("range", JVal.vInt 15)] =
      some (.vStr "AREA_SOUND_EFFECT") ∧
    JVal.vStr "AREA_SOUND_EFFECT" ≠ JVal.vStr "SOUND_EFFECT" :=
  ⟨rfl, rfl, rfl, by decide⟩

/-- C9, amended.  Ingesting `{"soundId": 2498}` with no other fields,
with two subscribers connected, makes each subscriber receive exactly one
frame, and that frame decodes to the event `{type: AREA_SOUND_EFFECT,
soundId: 2498, delay: 0, timestamp: 0, sceneX: 0, sceneY: 0, range: 15}`:
the kind defaults to `AREA_SOUND_EFFECT` because the producer omitted it,
and the other always-present wire fields carry their defaults. -/
theorem point_sound_scenario_amended :
    do_POST (fun _ => false) ⟨[1, 2], 0⟩ "\x7b\"soundId\": 2498\x7d" =
      ⟨ackBody, ⟨[1, 2], 1⟩,
       some { delivered :=
                [(1, "\x7b\"type\": \"AREA_SOUND_EFFECT\", \"soundId\": 2498, \"delay\": 0, \"timestamp\": 0, \"sceneX\": 0, \"sceneY\": 0, \"range\": 15\x7d\n"),
                 (2, "\x7b\"type\": \"AREA_SOUND_EFFECT\", \"soundId\": 2498, \"delay\": 0, \"timestamp\": 0, \"sceneX\": 0, \"sceneY\": 0, \"range\": 15\x7d\n")],
              remaining := [1, 2], closed := [] }, false⟩ ∧
    runChunks [] ["\x7b\"type\": \"AREA_SOUND_EFFECT\", \"soundId\": 2498, \"delay\": 0, \"timestamp\": 0, \"sceneX\": 0, \"sceneY\": 0, \"range\": 15\x7d\n".data] =
      ([.event (.obj
        [("type", .vStr "AREA_SOUND_EFFECT"), ("soundId", .vInt 2498),
         ("delay", .vInt 0), ("timestamp", .vInt 0), ("sceneX", .vInt 0),
         ("sceneY", .vInt 0), ("range", .vInt 15)])], []) :=
  ⟨rfl, rfl⟩

/-! ## Stream-reader lemmas -/

theorem splitChunks_no_nl {buf : List Char} (h : '\n' ∉ buf) :
    splitChunks buf = ([], buf) := by
  induction buf with
  | nil => rfl
  | cons c cs ih =>
    have hc : c ≠ '\n' := fun hc => h (hc ▸ List.mem_cons_self c cs)
    have ih2 := ih (fun hm => h (List.mem_cons_of_mem c hm))
    simp [splitChunks, ih2, hc]

theorem splitChunks_rem_no_nl (buf : List Char) : '\n' ∉ (splitChunks buf).2 := by
  induction buf with
  | nil => simp [splitChunks]
  | cons c cs ih =>
    by_cases hc : c = '\n'
    · subst hc
      simpa [splitChunks] using ih
    · simp only [splitChunks]
      cases hsc : splitChunks cs with
      | mk ls r =>
        rw [hsc] at ih
        simp only at ih
        simp only [if_neg hc]
        cases ls with
        | nil =>
          simp only [List.mem_cons, not_or]
          exact ⟨fun hx => hc hx.symm, ih⟩
        | cons l ls1 => simpa using ih

theorem splitChunks_append (x y : List Char) :
    splitChunks (x ++ y) =
      ((splitChunks x).1 ++ (splitChunks ((splitChunks x).2 ++ y)).1,
       (splitChunks ((splitChunks x).2 ++ y)).2) := by
  induction x with
  | nil => simp [splitChunks]
  | cons c x1 ih =>
    by_cases hc : c = '\n'
    · subst hc
      simp [splitChunks, ih]
    · cases h1 : splitChunks x1 with
      | mk ls1 r1 =>
        cases ls1 with
        | nil =>
          cases h2 : splitChunks (r1 ++ y) with
          | mk ls2 r2 =>
            cases ls2 with
            | nil => simp [splitChunks, ih, h1, h2, hc]
            | cons l2 t2 => simp [splitChunks, ih, h1, h2, hc]
        | cons l1 t1 => simp [splitChunks, ih, h1, hc]

theorem drain_append (x y : List Char) :
    drain (x ++ y) =
      ((drain x).1 ++ (drain ((drain x).2 ++ y)).1,
       (drain ((drain x).2 ++ y)).2) := by
  simp [drain, splitChunks_append x y, List.filterMap_append]

theorem drain_no_nl {buf : List Char} (h : '\n' ∉ buf) : drain buf = ([], buf) := by
  simp [drain, splitChunks_no_nl h]

theorem runChunks_join (chunks : List (List Char)) (buf : List Char)
    (h : '\n' ∉ buf) :
    runChunks buf chunks = drain (buf ++ chunks.flatten) := by
  induction chunks generalizing buf with
  | nil => simp [runChunks, drain_no_nl h]
  | cons c rest ih =>
    have hb1 : '\n' ∉ (drain (buf ++ c)).2 := by
      simpa [drain] using splitChunks_rem_no_nl (buf ++ c)
    simp only [runChunks, ih _ hb1, List.flatten_cons, ← List.append_assoc]
    rw [drain_append (buf ++ c) rest.flatten]

theorem splitChunks_line (l t : List Char) (h : '\n' ∉ l) :
    splitChunks (l ++ '\n' :: t) = (l :: (splitChunks t).1, (splitChunks t).2) := by
  induction l with
  | nil => simp [splitChunks]
  | cons c l1 ih =>
    have hc : c ≠ '\n' := fun hc => h (hc ▸ List.mem_cons_self c l1)
    have ih2 := ih (fun hm => h (List.mem_cons_of_mem c hm))
    simp [splitChunks, ih2, hc]

theorem splitChunks_renderLines (ls : List (List Char)) (h : ∀ l ∈ ls, '\n' ∉ l) :
    splitChunks (renderLines ls) = (ls, []) := by
  induction ls with
  | nil => rfl
  | cons l rest ih =>
    have h1 : '\n' ∉ l := h l (by simp)
    have ih2 := ih (fun x hx => h x (by simp [hx]))
    simp only [renderLines, List.map_cons, List.flatten_cons] at ih2 ⊢
    rw [show l ++ ['\n'] ++ (rest.map (fun l => l ++ ['\n'])).flatten =
          l ++ '\n' :: (rest.map (fun l => l ++ ['\n'])).flatten from by simp,
        splitChunks_line _ _ h1, ih2]

theorem drain_renderLines (ls : List (List Char)) (h : ∀ l ∈ ls, '\n' ∉ l) :
    drain (renderLines ls) = (ls.filterMap processLine, []) := by
  simp [drain, splitChunks_renderLines ls h]

theorem processLine_malformed {b : List Char} (hne : ¬(strip b).isEmpty)
    (hbad : parseJson (strip b) = none) :
    processLine b = some (.malformed (String.mk (strip b))) := by
  simp [processLine, hne, hbad]

/-! ## Claim C5 -/

/-- C5.  One undecodable line in the stream yields exactly one
malformed-frame report and leaves everything else untouched: the lines
before and after it produce exactly the messages they would produce on
their own (no frame is dropped or delivered twice), and the loop runs to
completion — a bad frame never aborts the stream. -/
theorem malformed_line_isolated (ls1 ls2 : List (List Char)) (b : List Char)
    (h1 : ∀ l ∈ ls1, '\n' ∉ l) (h2 : ∀ l ∈ ls2, '\n' ∉ l) (hb : '\n' ∉ b)
    (hne : ¬(strip b).isEmpty) (hbad : parseJson (strip b) = none) :
    drain (renderLines (ls1 ++ b :: ls2)) =
      (ls1.filterMap processLine ++
        .malformed (String.mk (strip b)) :: ls2.filterMap processLine, []) := by
  have hall : ∀ l ∈ ls1 ++ b :: ls2, '\n' ∉ l := by
    intro l hl
    rcases List.mem_append.1 hl with h | h
    · exact h1 l h
    · rcases List.mem_cons.1 h with rfl | h
      · exact hb
      · exact h2 l h
  rw [drain_renderLines _ hall, List.filterMap_append]
  simp [List.filterMap_cons, processLine_malformed hne hbad]

/-- C5, witness: the stream `{"a": 1}\nbad\n{"b": 2}\n` yields the first
event, one malformed report for `bad`, then the second event. -/
theorem malformed_line_isolated_witness :
    ¬(strip "bad".data).isEmpty ∧ parseJson (strip "bad".data) = none ∧
    drain (renderLines ["\x7b\"a\": 1\x7d".data, "bad".data, "\x7b\"b\": 2\x7d".data]) =
      (["\x7b\"a\": 1\x7d".data].filterMap processLine ++
        .malformed (String.mk (strip "bad".data)) ::
          ["\x7b\"b\": 2\x7d".data].filterMap processLine, []) :=
  ⟨by decide, rfl,
   malformed_line_isolated ["\x7b\"a\": 1\x7d".data] ["\x7b\"b\": 2\x7d".data] "bad".data
     (by decide) (by decide) (by decide) (by decide) rfl⟩

/-! ## Claim C3 -/

theorem utf8Step_length {l rest : List Nat} {c : Char}
    (h : utf8Step l = some (c, rest)) : rest.length < l.length := by
  cases l with
  | nil => simp [utf8Step] at h
  | cons b bs =>
    by_cases h80 : b < 0x80
    · simp only [utf8Step, if_pos h80, Option.some.injEq, Prod.mk.injEq] at h
      obtain ⟨-, rfl⟩ := h
      simp
    · by_cases hC2 : b < 0xC2
      · simp [utf8Step, h80, hC2] at h
      · by_cases hE0 : b < 0xE0
        · cases bs with
          | nil => simp [utf8Step, h80, hC2, hE0] at h
          | cons b1 bs1 =>
            by_cases hc1 : utf8Cont b1
            · simp only [utf8Step, if_neg h80, if_neg hC2, if_pos hE0, if_pos hc1,
                Option.some.injEq, Prod.mk.injEq] at h
              obtain ⟨-, rfl⟩ := h
              simp only [List.length_cons]
              omega
            · simp [utf8Step, h80, hC2, hE0, hc1] at h
        · by_cases hF0 : b < 0xF0
          · match bs with
            | [] => simp [utf8Step, h80, hC2, hE0, hF0] at h
            | [b1] => simp [utf8Step, h80, hC2, hE0, hF0] at h
            | b1 :: b2 :: bs2 =>
              by_cases hc : utf8Cont b1 && utf8Cont b2
              · by_cases hval : ((b - 0xE0) * 4096 + (b1 - 0x80) * 64 + (b2 - 0x80) < 0x800 ||
                    (0xD800 ≤ (b - 0xE0) * 4096 + (b1 - 0x80) * 64 + (b2 - 0x80) &&
                     (b - 0xE0) * 4096 + (b1 - 0x80) * 64 + (b2 - 0x80) < 0xE000)) = true
                · simp [utf8Step, h80, hC2, hE0, hF0, hc, hval] at h
                · simp only [utf8Step, if_neg h80, if_neg hC2, if_neg hE0, if_pos hF0,
                    if_pos hc, if_neg hval, Option.some.injEq, Prod.mk.injEq] at h
                  obtain ⟨-, rfl⟩ := h
                  simp only [List.length_cons]
                  omega
              · simp [utf8Step, h80, hC2, hE0, hF0, hc] at h
          · by_cases hF5 : b < 0xF5
            · match bs with
              | [] => simp [utf8Step, h80, hC2, hE0, hF0, hF5] at h
              | [b1] => simp [utf8Step, h80, hC2, hE0, hF0, hF5] at h
              | [b1, b2] => simp [utf8Step, h80, hC2, hE0, hF0, hF5] at h
              | b1 :: b2 :: b3 :: bs3 =>
                by_cases hc : utf8Cont b1 && utf8Cont b2 && utf8Cont b3
                · by_cases hval : ((b - 0xF0) * 262144 + (b1 - 0x80) * 4096 +
                      (b2 - 0x80) * 64 + (b3 - 0x80) < 0x10000 ||
                      0x10FFFF < (b - 0xF0) * 262144 + (b1 - 0x80) * 4096 +
                        (b2 - 0x80) * 64 + (b3 - 0x80)) = true
                  · simp [utf8Step, h80, hC2, hE0, hF0, hF5, hc, hval] at h
                  · simp only [utf8Step, if_neg h80, if_neg hC2, if_neg hE0, if_neg hF0,
                      if_pos hF5, if_pos hc, if_neg hval, Option.some.injEq,
                      Prod.mk.injEq] at h
                    obtain ⟨-, rfl⟩ := h
                    simp only [List.length_cons]
                    omega
                · simp [utf8Step, h80, hC2, hE0, hF0, hF5, hc] at h
            · simp [utf8Step, h80, hC2, hE0, hF0, hF5] at h

theorem utf8Step_append {l rest : List Nat} {c : Char} (y : List Nat)
    (h : utf8Step l = some (c, rest)) :
    utf8Step (l ++ y) = some (c, rest ++ y) := by
  cases l with
  | nil => simp [utf8Step] at h
  | cons b bs =>
    by_cases h80 : b < 0x80
    · simp only [utf8Step, if_pos h80, Option.some.injEq, Prod.mk.injEq] at h
      obtain ⟨rfl, rfl⟩ := h
      simp [utf8Step, h80]
    · by_cases hC2 : b < 0xC2
      · simp [utf8Step, h80, hC2] at h
      · by_cases hE0 : b < 0xE0
        · cases bs with
          | nil => simp [utf8Step, h80, hC2, hE0] at h
          | cons b1 bs1 =>
            by_cases hc1 : utf8Cont b1
            · simp only [utf8Step, if_neg h80, if_neg hC2, if_pos hE0, if_pos hc1,
                Option.some.injEq, Prod.mk.injEq] at h
              obtain ⟨rfl, rfl⟩ := h
              simp [utf8Step, h80, hC2, hE0, hc1]
            · simp [utf8Step, h80, hC2, hE0, hc1] at h
        · by_cases hF0 : b < 0xF0
          · match bs with
            | [] => simp [utf8Step, h80, hC2, hE0, hF0] at h
            | [b1] => simp [utf8Step, h80, hC2, hE0, hF0] at h
            | b1 :: b2 :: bs2 =>
              by_cases hc : utf8Cont b1 && utf8Cont b2
              · by_cases hval : ((b - 0xE0) * 4096 + (b1 - 0x80) * 64 + (b2 - 0x80) < 0x800 ||
                    (0xD800 ≤ (b - 0xE0) * 4096 + (b1 - 0x80) * 64 + (b2 - 0x80) &&
                     (b - 0xE0) * 4096 + (b1 - 0x80) * 64 + (b2 - 0x80) < 0xE000)) = true
                · simp [utf8Step, h80, hC2, hE0, hF0, hc, hval] at h
                · simp only [utf8Step, if_neg h80, if_neg hC2, if_neg hE0, if_pos hF0,
                    if_pos hc, if_neg hval, Option.some.injEq, Prod.mk.injEq] at h
                  obtain ⟨rfl, rfl⟩ := h
                  simp [utf8Step, h80, hC2, hE0, hF0, hc, hval]
              · simp [utf8Step, h80, hC2, hE0, hF0, hc] at h
          · by_cases hF5 : b < 0xF5
            · match bs with
              | [] => simp [utf8Step, h80, hC2, hE0, hF0, hF5] at h
              | [b1] => simp [utf8Step, h80, hC2, hE0, hF0, hF5] at h
              | [b1, b2] => simp [utf8Step, h80, hC2, hE0, hF0, hF5] at h
              | b1 :: b2 :: b3 :: bs3 =>
                by_cases hc : utf8Cont b1 && utf8Cont b2 && utf8Cont b3
                · by_cases hval : ((b - 0xF0) * 262144 + (b1 - 0x80) * 4096 +
                      (b2 - 0x80) * 64 + (b3 - 0x80) < 0x10000 ||
                      0x10FFFF < (b - 0xF0) * 262144 + (b1 - 0x80) * 4096 +
                        (b2 - 0x80) * 64 + (b3 - 0x80)) = true
                  · simp [utf8Step, h80, hC2, hE0, hF0, hF5, hc, hval] at h
                  · simp only [utf8Step, if_neg h80, if_neg hC2, if_neg hE0, if_neg hF0,
                      if_pos hF5, if_pos hc, if_neg hval, Option.some.injEq,
                      Prod.mk.injEq] at h
                    obtain ⟨rfl, rfl⟩ := h
                    simp [utf8Step, h80, hC2, hE0, hF0, hF5, hc, hval]
                · simp [utf8Step, h80, hC2, hE0, hF0, hF5, hc] at h
            · simp [utf8Step, h80, hC2, hE0, hF0, hF5] at h

theorem utf8DecodeF_fuel : ∀ (fuel : Nat) (l : List Nat), l.length ≤ fuel →
    utf8DecodeF fuel l = utf8DecodeF l.length l := by
  intro fuel
  induction fuel using Nat.strong_induction_on with
  | _ fuel ih =>
    intro l h
    cases l with
    | nil => cases fuel <;> rfl
    | cons b bs =>
      cases fuel with
      | zero => simp at h
      | succ f =>
        simp only [List.length_cons] at h ⊢
        simp only [utf8DecodeF]
        cases hs : utf8Step (b :: bs) with
        | none => simp
        | some p =>
          obtain ⟨c, rest⟩ := p
          have hlen := utf8Step_length hs
          simp only [List.length_cons] at hlen
          have e1 := ih f (by omega) rest (by omega)
          have e2 := ih bs.length (by omega) rest (by omega)
          simp [e1, e2]

theorem utf8Decode_loop (b : Nat) (bs : List Nat) :
    utf8Decode (b :: bs) =
      match utf8Step (b :: bs) with
      | none => none
      | some (c, rest) =>
        match utf8Decode rest with
        | none => none
        | some cs => some (c :: cs) := by
  rw [utf8Decode]
  simp only [List.length_cons, utf8DecodeF]
  cases hs : utf8Step (b :: bs) with
  | none => rfl
  | some p =>
    obtain ⟨c, rest⟩ := p
    have hlen := utf8Step_length hs
    simp only [List.length_cons] at hlen
    have e1 := utf8DecodeF_fuel bs.length rest (by omega)
    simp [e1, utf8Decode]

theorem utf8Decode_append_fuel : ∀ (n : Nat) (a b : List Nat) (cs : List Char),
    a.length ≤ n → utf8Decode a = some cs →
    utf8Decode (a ++ b) = (utf8Decode b).map (fun ds => cs ++ ds) := by
  intro n
  induction n with
  | zero =>
    intro a b cs hn h
    cases a with
    | nil =>
      simp only [utf8Decode, List.length_nil, utf8DecodeF, Option.some.injEq] at h
      subst h
      simp only [List.nil_append]
      cases utf8Decode b <;> simp
    | cons x xs => simp at hn
  | succ n ih =>
    intro a b cs hn h
    cases a with
    | nil =>
      simp only [utf8Decode, List.length_nil, utf8DecodeF, Option.some.injEq] at h
      subst h
      simp only [List.nil_append]
      cases utf8Decode b <;> simp
    | cons x xs =>
      rw [utf8Decode_loop] at h
      cases hs : utf8Step (x :: xs) with
      | none => simp [hs] at h
      | some p =>
        obtain ⟨c, rest⟩ := p
        simp only [hs] at h
        cases hr : utf8Decode rest with
        | none => simp [hr] at h
        | some cs1 =>
          simp only [hr, Option.some.injEq] at h
          subst h
          have hstep := utf8Step_append b hs
          simp only [List.cons_append] at hstep
          have hrl := utf8Step_length hs
          simp only [List.length_cons] at hrl
          simp only [List.length_cons] at hn
          rw [List.cons_append, utf8Decode_loop]
          simp only [hstep]
          rw [ih rest b cs1 (by omega) hr]
          cases utf8Decode b <;> simp

theorem utf8Decode_append (a b : List Nat) (cs : List Char)
    (h : utf8Decode a = some cs) :
    utf8Decode (a ++ b) = (utf8Decode b).map (fun ds => cs ++ ds) :=
  utf8Decode_append_fuel a.length a b cs le_rfl h

theorem utf8Decode_flatten (chunks : List (List Nat)) (css : List (List Char))
    (h : chunks.map utf8Decode = css.map some) :
    utf8Decode chunks.flatten = some css.flatten := by
  induction chunks generalizing css with
  | nil =>
    cases css with
    | nil => rfl
    | cons d ds => simp at h
  | cons c rest ih =>
    cases css with
    | nil => simp at h
    | cons d ds =>
      simp only [List.map_cons, List.cons.injEq] at h
      obtain ⟨hc, hrest⟩ := h
      simp only [List.flatten_cons]
      rw [utf8Decode_append c rest.flatten d hc, ih ds hrest]
      simp

theorem runBytes_runChunks (chunks : List (List Nat)) (css : List (List Char))
    (buf : List Char) (h : chunks.map utf8Decode = css.map some) :
    runBytes buf chunks = ((runChunks buf css).1, (runChunks buf css).2, false) := by
  induction chunks generalizing css buf with
  | nil =>
    cases css with
    | nil => simp [runBytes, runChunks]
    | cons d ds => simp at h
  | cons c rest ih =>
    cases css with
    | nil => simp at h
    | cons d ds =>
      simp only [List.map_cons, List.cons.injEq] at h
      obtain ⟨hc, hrest⟩ := h
      simp [runBytes, runChunks, hc, ih ds _ hrest]

/-- C3, counterexample.  Byte-level split invariance fails: the frame
`{"a": "é"}\n` (with `é` encoded as the two bytes `0xC3 0xA9`) decodes to
one event when delivered in a single read, but when the reads split
between `0xC3` and `0xA9` the first read's bytes are not valid UTF-8 on
their own, `data.decode("utf-8")` raises `UnicodeDecodeError`, and the
loop aborts having produced no events — a different (empty) event
sequence. -/
theorem split_invariance_cex :
    runBytes [] [[123, 34, 97, 34, 58, 32, 34, 195, 169, 34, 125, 10]] =
      ([.event (.obj [("a", .vStr "é")])], [], false) ∧
    runBytes [] [[123, 34, 97, 34, 58, 32, 34, 195], [169, 34, 125, 10]] =
      ([], [], true) ∧
    ([Msg.event (.obj [("a", .vStr "é")])] : List Msg) ≠ [] :=
  ⟨rfl, rfl, by decide⟩

/-- C3, amended.  Split invariance holds for every split whose reads each
fall on UTF-8 character boundaries (each read decodes on its own — in
particular every split of the bridge's pure-ASCII frames): the loop then
produces exactly the messages and final buffer of a single read of the
whole sequence, never aborts, and a frame split across reads is buffered
and completed on a later read.  A split inside a multi-byte UTF-8
character instead aborts the loop (see the counterexample). -/
theorem split_invariance_utf8 (chunks : List (List Nat)) (css : List (List Char))
    (h : chunks.map utf8Decode = css.map some) :
    runBytes [] chunks = runBytes [] [chunks.flatten] := by
  rw [runBytes_runChunks chunks css [] h,
      runBytes_runChunks [chunks.flatten] [css.flatten] []
        (by simp [utf8Decode_flatten chunks css h])]
  rw [show (runChunks [] css) = drain ([] ++ css.flatten) from
        runChunks_join css [] (by simp),
      show (runChunks [] [css.flatten]) = drain ([] ++ [css.flatten].flatten) from
        runChunks_join [css.flatten] [] (by simp)]
  simp

/-- C3, amended, witness: the frame `{"a": "b"}\n` split across two
ASCII reads decodes identically to a single read. -/
theorem split_invariance_utf8_witness :
    ([[123, 34, 97, 34, 58, 32, 34], [98, 34, 125, 10]] : List (List Nat)).map utf8Decode =
      (["\x7b\"a\": \"".data, "b\"\x7d\n".data] : List (List Char)).map some ∧
    runBytes [] [[123, 34, 97, 34, 58, 32, 34], [98, 34, 125, 10]] =
      runBytes [] [([[123, 34, 97, 34, 58, 32, 34], [98, 34, 125, 10]] :
        List (List Nat)).flatten] :=
  ⟨by decide,
   split_invariance_utf8 [[123, 34, 97, 34, 58, 32, 34], [98, 34, 125, 10]]
     ["\x7b\"a\": \"".data, "b\"\x7d\n".data] (by decide)⟩

/-! ## Round-trip: decimal numbers -/

theorem digitChar_toNat : ∀ d < 10, (digitChar d).toNat = 48 + d := by decide

theorem digitChar_isDigit : ∀ d < 10, isDigitChar (digitChar d) = true := by decide

theorem toDigitsLEF_lt : ∀ (fuel n : Nat), ∀ d ∈ toDigitsLEF fuel n, d < 10 := by
  intro fuel
  induction fuel with
  | zero => intro n d hd; simp [toDigitsLEF] at hd
  | succ f ih =>
    intro n d hd
    by_cases hn : n = 0
    · simp [toDigitsLEF, hn] at hd
    · simp only [toDigitsLEF, if_neg hn, List.mem_cons] at hd
      rcases hd with rfl | hd
      · omega
      · exact ih _ d hd

theorem toDigitsLEF_foldl : ∀ (fuel n a : Nat), n ≤ fuel →
    ((toDigitsLEF fuel n).reverse.map digitChar).foldl
        (fun acc c => acc * 10 + (c.toNat - 48)) a =
      a * 10 ^ (toDigitsLEF fuel n).length + n := by
  intro fuel
  induction fuel with
  | zero =>
    intro n a h
    have hn : n = 0 := by omega
    simp [toDigitsLEF, hn]
  | succ f ih =>
    intro n a h
    by_cases hn : n = 0
    · simp [toDigitsLEF, hn]
    · have hdiv : n / 10 ≤ f := by omega
      simp only [toDigitsLEF, if_neg hn, List.reverse_cons, List.map_append,
        List.map_cons, List.map_nil, List.foldl_append, List.foldl_cons,
        List.foldl_nil, List.length_cons]
      rw [ih (n / 10) a hdiv]
      rw [digitChar_toNat (n % 10) (by omega)]
      have : 48 + n % 10 - 48 = n % 10 := by omega
      rw [this, pow_succ]
      have := Nat.div_add_mod n 10
      ring_nf
      omega

theorem natDigits_foldl (n : Nat) :
    (natDigits n).foldl (fun acc c => acc * 10 + (c.toNat - 48)) 0 = n := by
  by_cases hn : n = 0
  · simp [natDigits, hn, digitChar]
  · simp only [natDigits, if_neg hn]
    have := toDigitsLEF_foldl n n 0 le_rfl
    simpa [toDigitsLE] using this

theorem natDigits_isDigit (n : Nat) : ∀ c ∈ natDigits n, isDigitChar c = true := by
  intro c hc
  by_cases hn : n = 0
  · simp [natDigits, hn] at hc
    subst hc
    decide
  · simp only [natDigits, if_neg hn, toDigitsLE, List.mem_map,
      List.mem_reverse] at hc
    obtain ⟨d, hd, rfl⟩ := hc
    exact digitChar_isDigit d (toDigitsLEF_lt n n d hd)

theorem natDigits_ne_nil (n : Nat) : natDigits n ≠ [] := by
  by_cases hn : n = 0
  · simp [natDigits, hn]
  · simp only [natDigits, if_neg hn, toDigitsLE]
    cases hf : toDigitsLEF n n with
    | nil =>
      exfalso
      cases n with
      | zero => exact hn rfl
      | succ m => simp [toDigitsLEF, hn] at hf
    | cons d ds => simp

theorem takeWhile_digits_append (ds : List Char) (c : Char) (t : List Char)
    (hds : ∀ x ∈ ds, isDigitChar x = true) (hc : isDigitChar c = false) :
    (ds ++ c :: t).takeWhile isDigitChar = ds ∧
    (ds ++ c :: t).dropWhile isDigitChar = c :: t := by
  induction ds with
  | nil => simp [List.takeWhile_cons, List.dropWhile_cons, hc]
  | cons d ds1 ih =>
    have hd : isDigitChar d = true := hds d (by simp)
    have ih2 := ih (fun x hx => hds x (by simp [hx]))
    simp [List.takeWhile_cons, List.dropWhile_cons, hd, ih2.1, ih2.2]

theorem parseNat_natDigits (n : Nat) (c : Char) (t : List Char)
    (hc : isDigitChar c = false) :
    parseNat (natDigits n ++ c :: t) = some (n, c :: t) := by
  obtain ⟨h1, h2⟩ := takeWhile_digits_append (natDigits n) c t (natDigits_isDigit n) hc
  simp only [parseNat, h1, h2, List.isEmpty_iff]
  rw [if_neg (natDigits_ne_nil n)]
  rw [natDigits_foldl n]

/-! ## Round-trip: string escapes -/

theorem char_valid_nat (c : Char) :
    c.toNat < 0x110000 ∧ ¬(0xD800 ≤ c.toNat ∧ c.toNat < 0xE000) := by
  have h := c.valid
  simp only [UInt32.isValidChar, Nat.isValidChar, Char.toNat] at h ⊢
  omega

theorem hexVal_hexDigitChar : ∀ d < 16, hexVal (hexDigitChar d) = some d := by decide

theorem parseHex4_hex (n : Nat) (hn : n < 65536) (rest : List Char) :
    parseHex4 (hex4 n ++ rest) = some (n, rest) := by
  have e3 := hexVal_hexDigitChar (n / 4096 % 16) (by omega)
  have e2 := hexVal_hexDigitChar (n / 256 % 16) (by omega)
  have e1 := hexVal_hexDigitChar (n / 16 % 16) (by omega)
  have e0 := hexVal_hexDigitChar (n % 16) (by omega)
  simp only [hex4, List.cons_append, List.nil_append, parseHex4, e3, e2, e1, e0,
    Option.some.injEq, Prod.mk.injEq]
  exact ⟨by omega, trivial⟩

theorem parseOne_backslash_u (l : List Char) :
    parseOne ('\\' :: 'u' :: l) =
      match parseUEsc l with
      | some (d, rest) => some (.inr (d, rest))
      | none => none := by
  simp [parseOne, parseEsc]

theorem parseUEsc_bmp (n : Nat) (hn : n < 65536)
    (h1 : ¬(0xD800 ≤ n ∧ n < 0xDC00)) (h2 : ¬(0xDC00 ≤ n ∧ n < 0xE000))
    (rest : List Char) :
    parseUEsc (hex4 n ++ rest) = some (Char.ofNat n, rest) := by
  simp only [parseUEsc, parseHex4_hex n hn rest]
  rw [if_neg h1, if_neg h2]

theorem parseUEsc_astral (n m : Nat) (hn : n < 65536) (hm : m < 65536)
    (hhi : 0xD800 ≤ n ∧ n < 0xDC00) (hlo : 0xDC00 ≤ m ∧ m < 0xE000)
    (rest : List Char) :
    parseUEsc (hex4 n ++ ('\\' :: 'u' :: (hex4 m ++ rest))) =
      some (Char.ofNat (65536 + (n - 0xD800) * 1024 + (m - 0xDC00)), rest) := by
  simp only [parseUEsc, parseHex4_hex n hn]
  rw [if_pos hhi]
  simp only [List.take_succ_cons, List.take_zero, List.drop_succ_cons, List.drop_zero,
    if_pos rfl]
  rw [parseHex4_hex m hm]
  simp [hlo]

theorem parseOne_escapeChar (c : Char) (rest : List Char) :
    parseOne (escapeChar c ++ rest) = some (.inr (c, rest)) := by
  by_cases h1 : c = '"'
  · subst h1; simp [escapeChar, parseOne, parseEsc, escDecode]
  · by_cases h2 : c = '\\'
    · subst h2; simp [escapeChar, parseOne, parseEsc, escDecode]
    · by_cases h3 : c = '\n'
      · subst h3; simp [escapeChar, parseOne, parseEsc, escDecode]
      · by_cases h4 : c = '\r'
        · subst h4; simp [escapeChar, parseOne, parseEsc, escDecode]
        · by_cases h5 : c = '\t'
          · subst h5; simp [escapeChar, parseOne, parseEsc, escDecode]
          · by_cases h6 : c = '\x08'
            · subst h6; simp [escapeChar, parseOne, parseEsc, escDecode]
            · by_cases h7 : c = '\x0c'
              · subst h7; simp [escapeChar, parseOne, parseEsc, escDecode]
              · by_cases h8 : (32 ≤ c.toNat && c.toNat ≤ 126) = true
                · simp only [escapeChar, if_neg h1, if_neg h2, if_neg h3, if_neg h4,
                    if_neg h5, if_neg h6, if_neg h7, if_pos h8, List.cons_append,
                    List.nil_append]
                  simp [parseOne, h1, h2]
                · have hval := char_valid_nat c
                  by_cases h9 : c.toNat < 65536
                  · rw [show escapeChar c ++ rest = '\\' :: 'u' :: (hex4 c.toNat ++ rest)
                        from by
                      simp [escapeChar, if_neg h1, if_neg h2, if_neg h3, if_neg h4,
                        if_neg h5, if_neg h6, if_neg h7, h8, if_pos h9, uEscape]]
                    rw [parseOne_backslash_u,
                      parseUEsc_bmp c.toNat h9 (by omega) (by omega) rest,
                      Char.ofNat_toNat]
                  · rw [show escapeChar c ++ rest =
                        '\\' :: 'u' :: (hex4 (0xD800 + (c.toNat - 65536) / 1024) ++
                          ('\\' :: 'u' :: (hex4 (0xDC00 + (c.toNat - 65536) % 1024) ++ rest)))
                        from by
                      simp [escapeChar, if_neg h1, if_neg h2, if_neg h3, if_neg h4,
                        if_neg h5, if_neg h6, if_neg h7, h8, if_neg h9, uEscape]]
                    rw [parseOne_backslash_u,
                      parseUEsc_astral _ _ (by omega) (by omega)
                        ⟨by omega, by omega⟩ ⟨by omega, by omega⟩ rest]
                    rw [show 65536 + (0xD800 + (c.toNat - 65536) / 1024 - 0xD800) * 1024 +
                          (0xDC00 + (c.toNat - 65536) % 1024 - 0xDC00) = c.toNat from
                        by omega,
                      Char.ofNat_toNat]

theorem escapeChar_length_pos (c : Char) : 1 ≤ (escapeChar c).length := by
  unfold escapeChar uEscape hex4
  repeat' split
  all_goals simp

theorem escapeChars_nil : escapeChars [] = [] := rfl

theorem escapeChars_cons (c : Char) (t : List Char) :
    escapeChars (c :: t) = escapeChar c ++ escapeChars t := rfl

theorem escapeChars_length (cs : List Char) : cs.length ≤ (escapeChars cs).length := by
  induction cs with
  | nil => simp [escapeChars_nil]
  | cons c t ih =>
    rw [escapeChars_cons]
    have := escapeChar_length_pos c
    simp only [List.length_append, List.length_cons]
    omega

theorem parseJStringF_escape : ∀ (cs : List Char) (fuel : Nat) (rest : List Char),
    cs.length + 1 ≤ fuel →
    parseJStringF fuel (escapeChars cs ++ '"' :: rest) = some (cs, rest) := by
  intro cs
  induction cs with
  | nil =>
    intro fuel rest h
    cases fuel with
    | zero => omega
    | succ f =>
      rw [escapeChars_nil, List.nil_append]
      simp [parseJStringF, parseOne]
  | cons c cs1 ih =>
    intro fuel rest h
    cases fuel with
    | zero => simp at h
    | succ f =>
      rw [escapeChars_cons, List.append_assoc]
      simp only [parseJStringF, parseOne_escapeChar c (escapeChars cs1 ++ '"' :: rest)]
      rw [ih f rest (by simp at h; omega)]

theorem parseJString_escape (cs rest : List Char) :
    parseJString (escapeChars cs ++ '"' :: rest) = some (cs, rest) := by
  apply parseJStringF_escape
  have h1 := escapeChars_length cs
  simp only [List.length_append, List.length_cons]
  omega

/-! ## Round-trip: values -/

theorem isDigitChar_bounds {c : Char} (h : isDigitChar c = true) :
    48 ≤ c.toNat ∧ c.toNat ≤ 57 := by
  simp only [isDigitChar, Bool.and_eq_true, decide_eq_true_eq] at h
  exact h

theorem isDigitChar_props {c : Char} (h : isDigitChar c = true) :
    c ≠ '"' ∧ c ≠ '-' ∧ jsonWs c = false ∧ c ≠ '\x7d' := by
  obtain ⟨hl, hr⟩ := isDigitChar_bounds h
  refine ⟨?_, ?_, ?_, ?_⟩
  · intro heq
    have h2 := congrArg Char.toNat heq
    rw [show ('"' : Char).toNat = 34 from rfl] at h2
    omega
  · intro heq
    have h2 := congrArg Char.toNat heq
    rw [show ('-' : Char).toNat = 45 from rfl] at h2
    omega
  · simp only [jsonWs, Bool.or_eq_false_iff, decide_eq_false_iff_not]
    refine ⟨⟨⟨?_, ?_⟩, ?_⟩, ?_⟩ <;> intro heq
    · have h2 := congrArg Char.toNat heq
      rw [show (' ' : Char).toNat = 32 from rfl] at h2
      omega
    · have h2 := congrArg Char.toNat heq
      rw [show ('\t' : Char).toNat = 9 from rfl] at h2
      omega
    · have h2 := congrArg Char.toNat heq
      rw [show ('\n' : Char).toNat = 10 from rfl] at h2
      omega
    · have h2 := congrArg Char.toNat heq
      rw [show ('\r' : Char).toNat = 13 from rfl] at h2
      omega
  · intro heq
    have h2 := congrArg Char.toNat heq
    rw [show ('\x7d' : Char).toNat = 125 from rfl] at h2
    omega

theorem skipWs_cons {c : Char} (t : List Char) (h : jsonWs c = false) :
    skipWs (c :: t) = c :: t := by
  simp [skipWs, List.dropWhile_cons, h]

theorem parseJVal_encode (v : JVal) (c : Char) (t : List Char)
    (hc : isDigitChar c = false) :
    parseJVal (encodeJVal v ++ c :: t) = some (v, c :: t) := by
  cases v with
  | vStr s =>
    obtain ⟨sd⟩ := s
    rw [show encodeJVal (.vStr ⟨sd⟩) ++ c :: t =
          '"' :: (escapeChars sd ++ '"' :: (c :: t)) from by
      simp [encodeJVal, encodeString]]
    simp only [parseJVal, if_pos rfl]
    rw [parseJString_escape]
    simp
  | vInt n =>
    by_cases hn : n < 0
    · rw [show encodeJVal (.vInt n) ++ c :: t =
            '-' :: (natDigits n.natAbs ++ c :: t) from by
        simp [encodeJVal, intDigits, hn]]
      have hq : ('-' : Char) ≠ '"' := by decide
      simp only [parseJVal, if_neg hq, if_pos rfl]
      rw [parseNat_natDigits _ c t hc]
      simp only [if_true]
      simp only [Option.some.injEq, Prod.mk.injEq, JVal.vInt.injEq]
      first
        | omega
        | exact ⟨by omega, trivial⟩
    · obtain ⟨d, ds, hd⟩ : ∃ d ds, natDigits n.natAbs = d :: ds := by
        cases hnd : natDigits n.natAbs with
        | nil => exact absurd hnd (natDigits_ne_nil _)
        | cons d ds => exact ⟨d, ds, rfl⟩
      have hdd : isDigitChar d = true := natDigits_isDigit _ d (by rw [hd]; simp)
      obtain ⟨hq, hm, -, -⟩ := isDigitChar_props hdd
      rw [show encodeJVal (.vInt n) ++ c :: t = d :: (ds ++ c :: t) from by
        simp [encodeJVal, intDigits, hn, hd]]
      simp only [parseJVal, if_neg hq, if_neg hm, if_pos hdd]
      rw [show d :: (ds ++ c :: t) = natDigits n.natAbs ++ c :: t from by simp [hd]]
      rw [parseNat_natDigits _ c t hc]
      simp only [if_true]
      simp only [Option.some.injEq, Prod.mk.injEq, JVal.vInt.injEq]
      first
        | omega
        | exact ⟨by omega, trivial⟩

/-! ## Round-trip: objects -/

theorem encodeJVal_head (v : JVal) :
    ∃ d ds, encodeJVal v = d :: ds ∧ jsonWs d = false ∧ d ≠ '\x7d' := by
  cases v with
  | vStr s =>
    exact ⟨'"', escapeChars s.data ++ ['"'],
      by simp [encodeJVal, encodeString], by decide, by decide⟩
  | vInt n =>
    by_cases hn : n < 0
    · exact ⟨'-', natDigits n.natAbs,
        by simp [encodeJVal, intDigits, hn], by decide, by decide⟩
    · obtain ⟨d, ds, hd⟩ : ∃ d ds, natDigits n.natAbs = d :: ds := by
        cases hnd : natDigits n.natAbs with
        | nil => exact absurd hnd (natDigits_ne_nil _)
        | cons d ds => exact ⟨d, ds, rfl⟩
      have hdd : isDigitChar d = true := natDigits_isDigit _ d (by rw [hd]; simp)
      exact ⟨d, ds, by simp [encodeJVal, intDigits, hn, hd],
        (isDigitChar_props hdd).2.2.1, (isDigitChar_props hdd).2.2.2⟩

theorem encodeItems_cons_head (q : String × JVal) (e2 : Event) :
    ∃ tail, encodeItems (q :: e2) = '"' :: tail := by
  obtain ⟨k, v⟩ := q
  obtain ⟨kd⟩ := k
  cases e2 with
  | nil =>
    exact ⟨escapeChars kd ++ '"' :: ':' :: ' ' :: encodeJVal v,
      by simp [encodeItems, encodePair, encodeString]⟩
  | cons r e3 =>
    exact ⟨escapeChars kd ++ '"' :: ':' :: ' ' ::
        (encodeJVal v ++ ',' :: ' ' :: encodeItems (r :: e3)),
      by simp [encodeItems, encodePair, encodeString]⟩

theorem skipWs_space (t : List Char) : skipWs (' ' :: t) = skipWs t := by
  simp +decide [skipWs, List.dropWhile_cons, jsonWs]

theorem skipWs_encodeJVal (v : JVal) (t : List Char) :
    skipWs (encodeJVal v ++ t) = encodeJVal v ++ t := by
  obtain ⟨d, ds, hd, hws, -⟩ := encodeJVal_head v
  rw [hd, List.cons_append]
  exact skipWs_cons _ hws

theorem skipWs_encodeItems (q : String × JVal) (e2 : Event) (t : List Char) :
    skipWs (encodeItems (q :: e2) ++ t) = encodeItems (q :: e2) ++ t := by
  obtain ⟨tail, htail⟩ := encodeItems_cons_head q e2
  rw [htail, List.cons_append]
  exact skipWs_cons _ (by decide)

theorem parseItemsF_encode :
    ∀ (e' : Event) (p : String × JVal) (fuel : Nat) (rest : List Char),
    (p :: e').length + 1 ≤ fuel →
    parseItemsF fuel (encodeItems (p :: e') ++ '\x7d' :: rest) = some (p :: e', rest) := by
  intro e'
  induction e' with
  | nil =>
    intro p fuel rest h
    obtain ⟨k, v⟩ := p
    obtain ⟨kd⟩ := k
    cases fuel with
    | zero => simp at h
    | succ f =>
      rw [show encodeItems [(String.mk kd, v)] ++ '\x7d' :: rest =
            '"' :: (escapeChars kd ++ '"' ::
              (':' :: ' ' :: (encodeJVal v ++ '\x7d' :: rest))) from by
        simp [encodeItems, encodePair, encodeString]]
      simp only [parseItemsF]
      rw [parseJString_escape]
      simp only []
      rw [skipWs_cons _ (by decide)]
      simp only []
      rw [skipWs_space, skipWs_encodeJVal]
      rw [parseJVal_encode v '\x7d' rest (by decide)]
      simp only []
      rw [skipWs_cons _ (by decide)]
      simp only []
  | cons q e2 ih =>
    intro p fuel rest h
    obtain ⟨k, v⟩ := p
    obtain ⟨kd⟩ := k
    cases fuel with
    | zero => simp at h
    | succ f =>
      rw [show encodeItems ((String.mk kd, v) :: q :: e2) ++ '\x7d' :: rest =
            '"' :: (escapeChars kd ++ '"' ::
              (':' :: ' ' :: (encodeJVal v ++ ',' ::
                (' ' :: (encodeItems (q :: e2) ++ '\x7d' :: rest))))) from by
        simp [encodeItems, encodePair, encodeString]]
      simp only [parseItemsF]
      rw [parseJString_escape]
      simp only []
      rw [skipWs_cons _ (by decide)]
      simp only []
      rw [skipWs_space, skipWs_encodeJVal]
      rw [parseJVal_encode v ',' _ (by decide)]
      simp only []
      rw [skipWs_cons _ (by decide)]
      simp only []
      rw [skipWs_space, skipWs_encodeItems]
      rw [ih q f rest (by simp at h ⊢; omega)]

theorem encodeItems_length :
    ∀ (e' : Event) (p : String × JVal),
    (p :: e').length ≤ (encodeItems (p :: e')).length := by
  intro e'
  induction e' with
  | nil =>
    intro p
    simp only [encodeItems, encodePair, encodeString, List.length_cons,
      List.length_nil, List.length_append]
    omega
  | cons q e2 ih =>
    intro p
    have h2 := ih q
    simp only [encodeItems, encodePair, encodeString, List.length_cons,
      List.length_nil, List.length_append] at h2 ⊢
    omega

theorem parseItems_encode (p : String × JVal) (e' : Event) (rest : List Char) :
    parseItems (encodeItems (p :: e') ++ '\x7d' :: rest) = some (p :: e', rest) := by
  apply parseItemsF_encode
  have h1 := encodeItems_length e' p
  simp only [List.length_append, List.length_cons] at h1 ⊢
  omega

theorem lookup_none_of_not_mem {l : Event} {k : String}
    (h : k ∉ l.map Prod.fst) : l.lookup k = none := by
  induction l with
  | nil => rfl
  | cons p t ih =>
    obtain ⟨k1, v1⟩ := p
    simp only [List.map_cons, List.mem_cons, not_or] at h
    rw [List.lookup_cons, show (k == k1) = false from beq_false_of_ne h.1]
    exact ih h.2

theorem toDict_aux :
    ∀ (e acc : Event), ((acc ++ e).map Prod.fst).Nodup →
    e.foldl (fun d p => dictInsert d p.1 p.2) acc = acc ++ e := by
  intro e
  induction e with
  | nil => intro acc h; simp
  | cons p e' ih =>
    intro acc h
    obtain ⟨k, v⟩ := p
    have hk : k ∉ acc.map Prod.fst := by
      rw [List.map_append] at h
      obtain ⟨-, -, hdisj⟩ := List.nodup_append.mp h
      intro hmem
      exact hdisj hmem (by simp)
    have hlook : acc.lookup k = none := lookup_none_of_not_mem hk
    simp only [List.foldl_cons]
    rw [show dictInsert acc k v = acc ++ [(k, v)] from by
      simp [dictInsert, hlook]]
    rw [ih (acc ++ [(k, v)]) (by simpa using h)]
    simp

theorem toDict_nodup (e : Event) (hE : (e.map Prod.fst).Nodup) : toDict e = e := by
  simpa using toDict_aux e [] (by simpa using hE)

theorem parseObj_items (c : Char) (l : List Char)
    (hws : jsonWs c = false) (hc : c ≠ '\x7d') :
    parseObj ('\x7b' :: c :: l) = parseItems (c :: l) := by
  simp only [parseObj]
  rw [skipWs_cons _ hws]
  split
  · next r1 h =>
    obtain ⟨h1, -⟩ := List.cons.inj h
    exact absurd h1 hc
  · next r1 h =>
    rfl

theorem parseJson_encodeEvent (e : Event) (hE : (e.map Prod.fst).Nodup) :
    parseJson (encodeEventChars e) = some (.obj e) := by
  cases e with
  | nil => rfl
  | cons p e' =>
    obtain ⟨tail, htail⟩ := encodeItems_cons_head p e'
    have hobj : parseObj (encodeEventChars (p :: e')) = some (p :: e', []) := by
      rw [show encodeEventChars (p :: e') =
            '\x7b' :: (encodeItems (p :: e') ++ '\x7d' :: []) from by
        simp [encodeEventChars]]
      rw [htail, List.cons_append]
      rw [parseObj_items '"' (tail ++ '\x7d' :: []) (by decide) (by decide)]
      rw [show ('"' : Char) :: (tail ++ '\x7d' :: []) =
            encodeItems (p :: e') ++ '\x7d' :: [] from by
        rw [htail]; simp]
      exact parseItems_encode p e' []
    simp only [parseJson]
    rw [show skipWs (encodeEventChars (p :: e')) = encodeEventChars (p :: e') from by
      rw [show encodeEventChars (p :: e') =
            '\x7b' :: (encodeItems (p :: e') ++ ['\x7d']) from rfl]
      exact skipWs_cons _ (by decide)]
    rw [hobj]
    simp only []
    rw [show skipWs ([] : List Char) = [] from rfl]
    simp [toDict_nodup _ hE]

/-! ## Round-trip: the encoded frame has no newline and no surrounding
whitespace -/

theorem hexDigitChar_ne_nl : ∀ d < 16, hexDigitChar d ≠ '\n' := by decide

theorem uEscape_no_nl (n : Nat) : ∀ x ∈ uEscape n, x ≠ '\n' := by
  intro x hx
  simp only [uEscape, hex4, List.mem_cons, List.not_mem_nil, or_false] at hx
  rcases hx with rfl | rfl | rfl | rfl | rfl | rfl
  · decide
  · decide
  · exact hexDigitChar_ne_nl _ (by omega)
  · exact hexDigitChar_ne_nl _ (by omega)
  · exact hexDigitChar_ne_nl _ (by omega)
  · exact hexDigitChar_ne_nl _ (by omega)

theorem isDigitChar_ne_nl {c : Char} (h : isDigitChar c = true) : c ≠ '\n' := by
  obtain ⟨h1, -⟩ := isDigitChar_bounds h
  intro heq
  have h2 := congrArg Char.toNat heq
  rw [show ('\n' : Char).toNat = 10 from rfl] at h2
  omega

theorem escapeChar_no_nl (c : Char) : ∀ x ∈ escapeChar c, x ≠ '\n' := by
  intro x hx
  by_cases h1 : c = '"'
  · subst h1; simp [escapeChar] at hx; rcases hx with rfl | rfl <;> decide
  · by_cases h2 : c = '\\'
    · subst h2; simp [escapeChar] at hx; rcases hx with rfl | rfl <;> decide
    · by_cases h3 : c = '\n'
      · subst h3; simp [escapeChar] at hx; rcases hx with rfl | rfl <;> decide
      · by_cases h4 : c = '\r'
        · subst h4; simp [escapeChar] at hx; rcases hx with rfl | rfl <;> decide
        · by_cases h5 : c = '\t'
          · subst h5; simp [escapeChar] at hx; rcases hx with rfl | rfl <;> decide
          · by_cases h6 : c = '\x08'
            · subst h6; simp [escapeChar] at hx; rcases hx with rfl | rfl <;> decide
            · by_cases h7 : c = '\x0c'
              · subst h7; simp [escapeChar] at hx; rcases hx with rfl | rfl <;> decide
              · by_cases h8 : (32 ≤ c.toNat && c.toNat ≤ 126) = true
                · rw [show escapeChar c = [c] from by
                      simp [escapeChar, h1, h2, h3, h4, h5, h6, h7, h8]] at hx
                  simp only [List.mem_cons, List.not_mem_nil, or_false] at hx
                  subst hx
                  exact h3
                · by_cases h9 : c.toNat < 65536
                  · rw [show escapeChar c = uEscape c.toNat from by
                        simp [escapeChar, h1, h2, h3, h4, h5, h6, h7, h8, h9]] at hx
                    exact uEscape_no_nl _ x hx
                  · rw [show escapeChar c =
                          uEscape (55296 + (c.toNat - 65536) / 1024) ++
                          uEscape (56320 + (c.toNat - 65536) % 1024) from by
                        simp [escapeChar, h1, h2, h3, h4, h5, h6, h7, h8, h9]] at hx
                    rcases List.mem_append.mp hx with hx | hx
                    · exact uEscape_no_nl _ x hx
                    · exact uEscape_no_nl _ x hx

theorem escapeChars_no_nl (cs : List Char) : ∀ x ∈ escapeChars cs, x ≠ '\n' := by
  induction cs with
  | nil => intro x hx; simp [escapeChars_nil] at hx
  | cons c t ih =>
    intro x hx
    rw [escapeChars_cons] at hx
    rcases List.mem_append.mp hx with hx | hx
    · exact escapeChar_no_nl c x hx
    · exact ih x hx

theorem natDigits_no_nl (n : Nat) : ∀ x ∈ natDigits n, x ≠ '\n' := by
  intro x hx
  exact isDigitChar_ne_nl (natDigits_isDigit n x hx)

theorem no_nl_nil : ∀ x ∈ ([] : List Char), x ≠ '\n' := by
  intro x hx
  exact absurd hx (List.not_mem_nil x)

theorem no_nl_cons {c : Char} {L : List Char} (hc : c ≠ '\n')
    (hL : ∀ x ∈ L, x ≠ '\n') : ∀ x ∈ c :: L, x ≠ '\n' := by
  intro x hx
  rcases List.mem_cons.mp hx with rfl | hx
  · exact hc
  · exact hL x hx

theorem no_nl_append {L M : List Char} (hL : ∀ x ∈ L, x ≠ '\n')
    (hM : ∀ x ∈ M, x ≠ '\n') : ∀ x ∈ L ++ M, x ≠ '\n' := by
  intro x hx
  rcases List.mem_append.mp hx with hx | hx
  · exact hL x hx
  · exact hM x hx

theorem encodeString_no_nl (s : String) : ∀ x ∈ encodeString s, x ≠ '\n' := by
  rw [show encodeString s = '"' :: (escapeChars s.data ++ ['"']) from rfl]
  exact no_nl_cons (by decide) (no_nl_append (escapeChars_no_nl _)
    (no_nl_cons (by decide) no_nl_nil))

theorem intDigits_no_nl (n : Int) : ∀ x ∈ intDigits n, x ≠ '\n' := by
  rw [intDigits]
  split
  · exact no_nl_cons (by decide) (natDigits_no_nl _)
  · exact natDigits_no_nl _

theorem encodeJVal_no_nl (v : JVal) : ∀ x ∈ encodeJVal v, x ≠ '\n' := by
  cases v with
  | vInt n => exact intDigits_no_nl n
  | vStr s => exact encodeString_no_nl s

theorem encodePair_no_nl (p : String × JVal) : ∀ x ∈ encodePair p, x ≠ '\n' := by
  rw [encodePair]
  exact no_nl_append (encodeString_no_nl _)
    (no_nl_cons (by decide) (no_nl_cons (by decide) (encodeJVal_no_nl _)))

theorem encodeItems_no_nl :
    ∀ (e : Event), ∀ x ∈ encodeItems e, x ≠ '\n' := by
  intro e
  induction e with
  | nil => exact no_nl_nil
  | cons p e' ih =>
    cases e' with
    | nil => exact encodePair_no_nl p
    | cons q e2 =>
      rw [show encodeItems (p :: q :: e2) =
            encodePair p ++ ',' :: ' ' :: encodeItems (q :: e2) from rfl]
      exact no_nl_append (encodePair_no_nl p)
        (no_nl_cons (by decide) (no_nl_cons (by decide) ih))

theorem encodeEventChars_no_nl (e : Event) : ∀ x ∈ encodeEventChars e, x ≠ '\n' := by
  rw [encodeEventChars]
  exact no_nl_cons (by decide) (no_nl_append (encodeItems_no_nl e)
    (no_nl_cons (by decide) no_nl_nil))

theorem strip_of_ends {a b : Char} (xs : List Char)
    (ha : pyWs a = false) (hb : pyWs b = false) :
    strip (a :: (xs ++ [b])) = a :: (xs ++ [b]) := by
  unfold strip
  rw [List.dropWhile_cons]
  simp only [ha, Bool.false_eq_true, if_false]
  rw [show (a :: (xs ++ [b])).reverse = b :: (xs.reverse ++ [a]) from by simp]
  rw [List.dropWhile_cons]
  simp only [hb, Bool.false_eq_true, if_false]
  simp

theorem strip_encodeEventChars (e : Event) :
    strip (encodeEventChars e) = encodeEventChars e := by
  rw [show encodeEventChars e = '\x7b' :: (encodeItems e ++ ['\x7d']) from rfl]
  exact strip_of_ends _ (by decide) (by decide)

theorem processLine_encodeEvent (e : Event) (hE : (e.map Prod.fst).Nodup) :
    processLine (encodeEventChars e) = some (.event (.obj e)) := by
  simp only [processLine, strip_encodeEventChars]
  rw [show (encodeEventChars e).isEmpty = false from rfl]
  simp only [Bool.false_eq_true, if_false]
  rw [parseJson_encodeEvent e hE]

/-! ## Claim C2 -/

/-- C2.  Encode/decode round-trip.  For every valid event `E` (a Python
dict: its keys are distinct), including any pass-through fields, feeding
the bridge's serialization of `E` — the `json.dumps` frame followed by
the newline that `broadcast` appends — to the client's read loop yields
exactly the event `E` back (one dispatched message decoding to `E`, with
an empty buffer left over): `decode (encode E) = E`. -/
theorem encode_decode_roundtrip (e : Event) (hE : (e.map Prod.fst).Nodup) :
    drain (encodeEventChars e ++ ['\n']) = ([.event (.obj e)], []) := by
  have hnl : '\n' ∉ encodeEventChars e :=
    fun h => encodeEventChars_no_nl e '\n' h rfl
  rw [show encodeEventChars e ++ ['\n'] = encodeEventChars e ++ '\n' :: [] from rfl]
  simp only [drain, splitChunks_line _ _ hnl]
  rw [show splitChunks [] = ([], []) from rfl]
  simp [processLine_encodeEvent e hE]

/-- Witness for C2 at the concrete event
`[("type", "SOUND_EFFECT"), ("soundId", 2498), ("soundFile", "hit.wav")]`. -/
theorem encode_decode_roundtrip_witness :
    (([("type", JVal.vStr "SOUND_EFFECT"), ("soundId", JVal.vInt 2498),
      ("soundFile", JVal.vStr "hit.wav")].map Prod.fst).Nodup) ∧
    drain (encodeEventChars [("type", JVal.vStr "SOUND_EFFECT"),
        ("soundId", JVal.vInt 2498), ("soundFile", JVal.vStr "hit.wav")] ++ ['\n']) =
      ([.event (.obj [("type", JVal.vStr "SOUND_EFFECT"),
        ("soundId", JVal.vInt 2498), ("soundFile", JVal.vStr "hit.wav")])], []) :=
  ⟨by decide, encode_decode_roundtrip _ (by decide)⟩

end AudioSocket
